import Mathlib

/-
Verification development for the Textbook-Indexer consolidation engine
(mergeAnalysisResults in src/services/geminiService.ts) and the composite-PDF
assembly (generateCompositePdf in src/components/ResultsView.tsx).

Modelling conventions:
* JavaScript strings are Lean String values.  Page references are typed
  number | string in TypeScript, but every use in the merge and render code
  first coerces through String(p); we therefore model page references by
  their string form directly.
* String.prototype.localeCompare (default locale, and with sensitivity
  "base" after lowering) is modelled as lexicographic code-point comparison,
  which is how the specification itself describes the fallback comparison;
  ICU collation tables are abstracted away.
* toLowerCase / toUpperCase are modelled with Lean's ASCII Char.toLower /
  Char.toUpper.
* Array.prototype.sort is modelled as a stable insertion sort (jsSort).
  For comparators that are consistent this agrees with every conforming
  implementation; for inconsistent comparators ECMAScript leaves the result
  implementation-defined and jsSort fixes one realization.
* JavaScript Map and Set preserve insertion order; they are modelled as
  association lists with update-in-place and append-if-absent.
-/

/-- Lexicographic code-point comparison of character lists, the model of
String.prototype.localeCompare (locale collation abstracted). -/
def lexCmp : List Char → List Char → Int
  | [], [] => 0
  | [], _ :: _ => -1
  | _ :: _, [] => 1
  | a :: as, b :: bs =>
    if a.toNat < b.toNat then -1
    else if b.toNat < a.toNat then 1
    else lexCmp as bs

/-- localeCompare model on strings. -/
def strCmp (a b : String) : Int := lexCmp a.data b.data

/-- Model of String.prototype.toLowerCase (ASCII case mapping). -/
def jsToLower (s : String) : String := ⟨s.data.map Char.toLower⟩

/-- Model of String.prototype.trim. -/
def jsTrim (s : String) : String :=
  ⟨((s.data.dropWhile Char.isWhitespace).reverse.dropWhile Char.isWhitespace).reverse⟩

/-- Value of a list of decimal digit characters. -/
def digitsVal (cs : List Char) : Nat := cs.foldl (fun a c => 10 * a + (c.toNat - 48)) 0

/-- Model of JavaScript parseInt with no radix argument on decimal input:
skip leading whitespace, optional sign, then a maximal run of decimal digits;
NaN (none) when no digit follows.  The hexadecimal 0x prefix special case is
not modelled. -/
def jsParseInt (s : String) : Option Int :=
  let cs := s.data.dropWhile Char.isWhitespace
  let sr : Int × List Char :=
    match cs with
    | [] => (1, [])
    | c :: rest =>
      if c = '-' then (-1, rest) else if c = '+' then (1, rest) else (1, c :: rest)
  let ds := sr.2.takeWhile Char.isDigit
  if ds.isEmpty then none else some (sr.1 * (digitsVal ds : Int))

/-- First maximal run of decimal digits in a character list, if any. -/
def firstDigitRun : List Char → Option (List Char)
  | [] => none
  | c :: cs => if c.isDigit then some (c :: cs.takeWhile Char.isDigit) else firstDigitRun cs

/-- Numeric part of an outline page reference, modelling
String(p).match(/(\d+)/) followed by parseInt on the match
(geminiService.ts lines 183-186). -/
def getPageNum (s : String) : Option Nat := (firstDigitRun s.data).map digitsVal

/-- TocEntry of src/types.ts; the number | string pageNumber is modelled by
its String(p) form. -/
structure TocEntry where
  title : String
  level : Int
  pageNumber : String
deriving DecidableEq, Repr

/-- IndexEntry of src/types.ts, page references in their string form. -/
structure IndexEntry where
  term : String
  pageNumbers : List String
deriving DecidableEq, Repr

/-- AnalysisResult of src/types.ts. -/
structure AnalysisResult where
  toc : List TocEntry
  index : List IndexEntry
deriving DecidableEq, Repr

/-- Stable insertion of one element: x goes after every y with le y x.
Building block of the Array.prototype.sort model. -/
def jsInsert (le : α → α → Bool) (x : α) : List α → List α
  | [] => [x]
  | y :: ys => if le y x then y :: jsInsert le x ys else x :: y :: ys

/-- Stable sort modelling Array.prototype.sort with comparator c, where
le a b means c a b ≤ 0.  For inconsistent comparators ECMAScript leaves the
order implementation-defined; jsSort fixes this insertion realization. -/
def jsSort (le : α → α → Bool) (l : List α) : List α :=
  l.foldl (fun acc x => jsInsert le x acc) []

/-- Outline sort comparator of geminiService.ts lines 181-196: numeric when
both references contain a digit run and the numeric parts differ, otherwise
localeCompare of the full reference strings. -/
def tocCmp (a b : TocEntry) : Int :=
  match getPageNum a.pageNumber, getPageNum b.pageNumber with
  | some numA, some numB =>
    if numA ≠ numB then (numA : Int) - (numB : Int) else strCmp a.pageNumber b.pageNumber
  | _, _ => strCmp a.pageNumber b.pageNumber

def tocLe (a b : TocEntry) : Bool := tocCmp a b ≤ 0

/-- Index page-reference comparator of geminiService.ts lines 247-252:
parseInt difference when both parse (also when equal), else localeCompare. -/
def pageCmp (a b : String) : Int :=
  match jsParseInt a, jsParseInt b with
  | some nA, some nB => nA - nB
  | _, _ => strCmp a b

def pageLe (a b : String) : Bool := pageCmp a b ≤ 0

/-- Final index comparator of geminiService.ts lines 261-263:
localeCompare with sensitivity "base", modelled as code-point comparison of
the lowercased terms. -/
def baseCmp (a b : String) : Int := strCmp (jsToLower a) (jsToLower b)

def baseLe (a b : IndexEntry) : Bool := baseCmp a.term b.term ≤ 0

/-- Outline dedup key of geminiService.ts lines 170-171: the string
level + "-" + trimmed lowercased title. -/
def tocKey (e : TocEntry) : String := toString e.level ++ "-" ++ jsToLower (jsTrim e.title)

/-- Outline dedup of geminiService.ts lines 163-178: a Map keyed by tocKey,
set only when the key is absent, values read back in insertion order.  seen
is the key set of the map built so far. -/
def dedupTocAux : List TocEntry → List String → List TocEntry
  | [], _ => []
  | e :: es, seen =>
    if seen.contains (tocKey e) then dedupTocAux es seen
    else e :: dedupTocAux es (tocKey e :: seen)

/-- Per-term record of geminiService.ts lines 200-203: casing-variant
frequencies (a Map, insertion order) and the page-reference Set
(insertion order). -/
structure IndexRecord where
  termVariants : List (String × Nat)
  pageNumbers : List String
deriving DecidableEq, Repr

/-- record.termVariants.set(rawTerm, (get(rawTerm) ?? 0) + 1): update in
place, or append with count 1. -/
def bumpVariant : List (String × Nat) → String → List (String × Nat)
  | [], v => [(v, 1)]
  | (w, c) :: rest, v => if w = v then (w, c + 1) :: rest else (w, c) :: bumpVariant rest v

/-- record.pageNumbers.add(p) on the insertion-ordered Set model. -/
def addPage (pages : List String) (p : String) : List String :=
  if pages.contains p then pages else pages ++ [p]

def addPages (pages : List String) (ps : List String) : List String := ps.foldl addPage pages

/-- Mutation applied to the record of one key by one input entry
(geminiService.ts lines 219-225). -/
def recInsert (rawTerm : String) (ps : List String) (r : IndexRecord) : IndexRecord :=
  { termVariants := bumpVariant r.termVariants rawTerm
  , pageNumbers := addPages r.pageNumbers ps }

/-- indexMap.set semantics: update the record in place when the key exists,
else append a fresh record (created empty, then mutated). -/
def mapUpdate : List (String × IndexRecord) → String → (IndexRecord → IndexRecord) → List (String × IndexRecord)
  | [], key, f => [(key, f ⟨[], []⟩)]
  | (k, r) :: rest, key, f =>
    if k = key then (k, f r) :: rest else (k, r) :: mapUpdate rest key f

/-- Processing of one index entry, geminiService.ts lines 205-226: trim the
term, drop it when empty, group under the lowercased key. -/
def insertIndexEntry (m : List (String × IndexRecord)) (e : IndexEntry) : List (String × IndexRecord) :=
  let rawTerm := jsTrim e.term
  if rawTerm = "" then m
  else mapUpdate m (jsToLower rawTerm) (recInsert rawTerm e.pageNumbers)

def buildIndexMap (entries : List IndexEntry) : List (String × IndexRecord) :=
  entries.foldl insertIndexEntry []

/-- Model of variant[0] === variant[0].toUpperCase() (geminiService.ts line
240).  A variant is never empty (terms with empty trim are dropped before
variants are recorded), so the [] branch is unreachable. -/
def firstCharKeepsCase (v : String) : Bool :=
  match v.data with
  | [] => false
  | c :: _ => c.toUpper = c

/-- One step of the display-form vote, geminiService.ts lines 234-244. -/
def voteStep (acc : String × Int) (vc : String × Nat) : String × Int :=
  if (vc.2 : Int) > acc.2 then (vc.1, (vc.2 : Int))
  else if (vc.2 : Int) = acc.2 ∧ firstCharKeepsCase vc.1 then (vc.1, acc.2)
  else acc

/-- Display form of a term group, geminiService.ts lines 231-244: fold over
the variant frequencies starting from bestTerm = "", maxCount = -1. -/
def bestTerm (r : IndexRecord) : String := (r.termVariants.foldl voteStep ("", -1)).1

/-- Conversion of one record to an output IndexEntry, geminiService.ts
lines 229-258. -/
def mergeIndexEntry (r : IndexRecord) : IndexEntry :=
  { term := bestTerm r, pageNumbers := jsSort pageLe r.pageNumbers }

/-- mergeAnalysisResults of src/services/geminiService.ts lines 159-269. -/
def mergeAnalysisResults (results : List AnalysisResult) : AnalysisResult :=
  { toc := jsSort tocLe (dedupTocAux ((results.map (fun r => r.toc)).flatten) [])
  , index := jsSort baseLe
      (((buildIndexMap ((results.map (fun r => r.index)).flatten)).map (fun kr => mergeIndexEntry kr.2))) }

example :
    mergeAnalysisResults
      [⟨[⟨"Intro", 1, "1"⟩], [⟨"Cell", ["1"]⟩]⟩, ⟨[⟨"Intro", 1, "12"⟩], [⟨"cell", ["12"]⟩]⟩]
    = ⟨[⟨"Intro", 1, "1"⟩], [⟨"Cell", ["1", "12"]⟩]⟩ := by decide

/-
Composition engine, src/components/ResultsView.tsx (generateCompositePdf).
Page geometry is modelled in fixed-point coordinates scaled by 100, so the
pdf-lib constants 595.28 and 841.89 become the exact integers below; font
metrics (widthOfTextAtSize) are an abstract parameter wf returning a
nonnegative scaled width.
-/

def pageWidthC : Int := 59528
def pageHeightC : Int := 84189
def marginC : Int := 5000
def lineHeightC : Int := 1600
def contentWidthC : Int := pageWidthC - 2 * marginC

/-- Model of resolveTargetPage (ResultsView.tsx lines 147-157): strip every
non-digit character, parseInt the remainder, fall back to contentStartIndex
when nothing parses, else clamp contentStartIndex + (p - 1) into
[contentStartIndex, contentEndIndex]. -/
def resolveTargetPage (contentStartIndex contentEndIndex : Int) (ref : String) : Int :=
  match jsParseInt ⟨ref.data.filter Char.isDigit⟩ with
  | none => contentStartIndex
  | some p =>
    let target := contentStartIndex + (p - 1)
    if target > contentEndIndex then contentEndIndex
    else if target < contentStartIndex then contentStartIndex
    else target

/-- Displayed page-number string (ResultsView.tsx lines 248-253 and
322-328): parseInt the original reference; when it parses, display the
parsed value plus the page offset in canonical decimal, else display the
original string unchanged. -/
def displayPageString (pageOffset : Int) (orig : String) : String :=
  match jsParseInt orig with
  | some p => toString (p + pageOffset)
  | none => orig

/-- Page offset of ResultsView.tsx line 133: 0 in printed mode, the ToC page
count in sequential mode. -/
def jsPageOffset (usePrintedPageNumbers : Bool) (tocPageCount : Nat) : Int :=
  if usePrintedPageNumbers then 0 else (tocPageCount : Int)

/-- addLink guard of ResultsView.tsx line 81: the link annotation is dropped
when the target index is outside the document. -/
def linkTarget (totalPages : Nat) (t : Int) : Option Int :=
  if 0 ≤ t ∧ t < (totalPages : Int) then some t else none

/-- Run-collapsing of newline characters, first stage of sanitize
(text.replace of the source uses the pattern of one or more newline
characters replaced by one space). -/
def collapseNl (inRun : Bool) : List Char → List Char
  | [] => []
  | c :: cs =>
    if c = '\n' ∨ c = '\r' then
      if inRun then collapseNl true cs else ' ' :: collapseNl true cs
    else c :: collapseNl false cs

/-- Model of sanitize (ResultsView.tsx lines 49-56): newline runs to one
space, en and em dashes to "-", curly quotes to ASCII quotes, then removal
of every character outside the printable ASCII range. -/
def sanitize (t : String) : String :=
  ⟨((collapseNl false t.data).map (fun c =>
      if c = '–' ∨ c = '—' then '-'
      else if c = '“' ∨ c = '”' then '"'
      else if c = '’' then '\''
      else c)).filter (fun c => 32 ≤ c.toNat ∧ c.toNat ≤ 126)⟩

/-- Splitting on every single space character, the behaviour of
JavaScript split(" "): consecutive spaces produce empty fields and the
empty string yields one empty field. -/
def splitOnSpaceAux (cur : List Char) : List Char → List String
  | [] => [⟨cur.reverse⟩]
  | c :: cs =>
    if c = ' ' then ⟨cur.reverse⟩ :: splitOnSpaceAux [] cs
    else splitOnSpaceAux (c :: cur) cs

def jsSplitSpace (s : String) : List String := splitOnSpaceAux [] s.data

/-- Model of wrapText (ResultsView.tsx lines 58-77): greedy word wrap over
the space-separated words of the sanitized text; the final line is pushed
only when non-empty (JavaScript truthiness of currentLine).  The width
function is total, so the catch branch of the source is unreachable in the
model. -/
def wrapText (wf : String → Nat) (text : String) (maxWidth : Int) : List String :=
  let words := jsSplitSpace (sanitize text)
  let p := words.tail.foldl
    (fun (p : List String × String) word =>
      if ((wf (p.2 ++ " " ++ word) : Int)) < maxWidth then (p.1, p.2 ++ " " ++ word)
      else (p.1 ++ [p.2], word))
    ([], words.headD "")
  if p.2 ≠ "" then p.1 ++ [p.2] else p.1

/-- Measurement pass of ResultsView.tsx lines 109-129: simulate the ToC
layout with a virtual cursor, counting pages; wf b s n is the width of s in
the bold (b = true) or regular font at size n. -/
def measureTocPages (wf : Bool → String → Nat → Nat) (toc : List TocEntry) : Nat :=
  (toc.foldl
    (fun (st : Nat × Int) entry =>
      let indent : Int := (entry.level - 1) * 1500
      let availableWidth := contentWidthC - indent - 4000
      let isBold := entry.level = 1
      let entrySize : Nat := if entry.level = 1 then 12 else 10
      let lines := wrapText (fun s => wf isBold s entrySize) entry.title availableWidth
      let st2 := lines.foldl
        (fun (st : Nat × Int) _ =>
          let st := if st.2 < marginC then (st.1 + 1, pageHeightC - marginC) else st
          (st.1, st.2 - lineHeightC))
        st
      (st2.1, st2.2 - 400))
    (1, pageHeightC - marginC - 6000)).1

/-- Content drawn onto a ToC placeholder page in Step 4: either plain text
(title lines, dotted leaders, the section header) or a page number with its
link annotation target (drawText of displayPageStr plus addLink, merged into
one record). -/
inductive TocDraw where
  | text (page : Nat) (s : String) : TocDraw
  | pageNum (page : Nat) (display : String) (target : Option Int) : TocDraw
deriving DecidableEq, Repr

/-- Host page of a draw. -/
def drawPage : TocDraw → Nat
  | TocDraw.text p _ => p
  | TocDraw.pageNum p _ _ => p

/-- Cursor state of the Step 4 fill loop (ResultsView.tsx lines 297-369).
curPage is the index of currentTocPage; tocPageIndex may run past the
allocated pages on overflow, in which case currentTocPage is left at the
last allocated page. -/
structure FillState where
  curPage : Nat
  tocPageIndex : Nat
  cursorY : Int
  draws : List TocDraw
deriving Repr

/-- Page switch of the Step 4 fill loop (ResultsView.tsx lines 333-339):
when the cursor crosses the bottom margin, advance tocPageIndex; the
current page only follows while placeholder pages remain, so overflow stays
clipped to the last allocated page. -/
def tocPageBreak (tocPageCount : Nat) (st : FillState) : FillState :=
  if st.cursorY < marginC then
    let newIdx := st.tocPageIndex + 1
    if newIdx < tocPageCount then
      { st with tocPageIndex := newIdx, curPage := newIdx, cursorY := pageHeightC - marginC }
    else { st with tocPageIndex := newIdx }
  else st

/-- Dotted leader of ResultsView.tsx lines 344-356, drawn on the current
page after the last title line when room remains. -/
def tocDotsDraw (wf : Bool → String → Nat → Nat) (isBold : Bool) (entrySize : Nat) (indent : Int)
    (line : String) (st : FillState) : FillState :=
  let titleLineWidth : Int := wf isBold line entrySize
  let startDotX := marginC + indent + titleLineWidth + 500
  let endDotX := pageWidthC - marginC - 3500
  if endDotX > startDotX then
    let dotW : Int := wf false "." 10
    let dotCount := ((endDotX - startDotX) / (dotW + 200)).toNat
    { st with draws := st.draws ++
        [TocDraw.text st.curPage (String.intercalate " " (List.replicate dotCount "."))] }
  else st

/-- One wrapped title line of one ToC entry (ResultsView.tsx lines 332-367):
page break check, title text, and on the last line the dotted leader, the
displayed page number, and its link annotation. -/
def tocLineStep (wf : Bool → String → Nat → Nat) (tocPageCount : Nat) (isBold : Bool)
    (entrySize : Nat) (indent : Int) (displayPageStr : String) (target : Option Int)
    (linesLen : Nat) (st : FillState) (il : Nat × String) : FillState :=
  let st := tocPageBreak tocPageCount st
  let st := { st with draws := st.draws ++ [TocDraw.text st.curPage il.2] }
  let st :=
    if il.1 = linesLen - 1 then
      let st := tocDotsDraw wf isBold entrySize indent il.2 st
      { st with draws := st.draws ++ [TocDraw.pageNum st.curPage displayPageStr target] }
    else st
  { st with cursorY := st.cursorY - lineHeightC }

/-- One ToC entry of the Step 4 fill loop (ResultsView.tsx lines 312-369). -/
def tocEntryStep (wf : Bool → String → Nat → Nat) (tocPageCount : Nat) (pageOffset : Int)
    (contentStart contentEnd : Int) (totalPages : Nat) (st : FillState) (entry : TocEntry) :
    FillState :=
  let isBold := entry.level = 1
  let entrySize : Nat := if entry.level = 1 then 12 else 10
  let indent : Int := (entry.level - 1) * 1500
  let titleWidth := contentWidthC - indent - 3000 - 1000
  let lines := wrapText (fun s => wf isBold s entrySize) entry.title titleWidth
  let displayPageStr := displayPageString pageOffset entry.pageNumber
  let target := linkTarget totalPages (resolveTargetPage contentStart contentEnd entry.pageNumber)
  let st2 := lines.enum.foldl
    (tocLineStep wf tocPageCount isBold entrySize indent displayPageStr target lines.length) st
  { st2 with cursorY := st2.cursorY - 400 }

/-- Step 4 of generateCompositePdf (ResultsView.tsx lines 297-369): fill the
ToC placeholder pages, emitting the drawn content in order.  The loop never
adds a page; when cursorY crosses the bottom margin past the last allocated
page, drawing continues on that last page (clipping). -/
def fillTocDraws (wf : Bool → String → Nat → Nat) (tocPageCount : Nat) (pageOffset : Int)
    (contentStart contentEnd : Int) (totalPages : Nat) (toc : List TocEntry) : List TocDraw :=
  (toc.foldl (tocEntryStep wf tocPageCount pageOffset contentStart contentEnd totalPages)
    { curPage := 0, tocPageIndex := 0, cursorY := pageHeightC - marginC - 5000
    , draws := [TocDraw.text 0 "Table of Contents"] }).draws

/-- Rendered page-reference content of the index section, Step 3
(ResultsView.tsx lines 243-286): for every page reference of every entry, in
order, the original string, the displayed string, and the link target.  The
two-column geometric bookkeeping of the loop places this content but does
not alter it, and is omitted. -/
def indexRenderedRefs (pageOffset contentStart contentEnd : Int) (totalPages : Nat)
    (index : List IndexEntry) : List (String × String × Option Int) :=
  (index.map (fun item =>
    item.pageNumbers.map (fun p =>
      (p, displayPageString pageOffset p,
        linkTarget totalPages (resolveTargetPage contentStart contentEnd p))))).flatten

/-- Origin of a page in the composed document. -/
inductive PageBase (α : Type) where
  | tocBlank : PageBase α
  | bodyPage (a : α) : PageBase α
  | indexPage : PageBase α
deriving DecidableEq, Repr

/-- A page of the composed document: its origin plus content drawn onto it
during rendering. -/
structure ModelPage (α : Type) where
  base : PageBase α
  placed : List TocDraw
deriving DecidableEq, Repr

/-- Document skeleton after Steps 1-3 (ResultsView.tsx lines 135-145 and
161-294): tocPageCount blank placeholders, every page of the original body
document copied verbatim in order, then the pages added while rendering the
index section. -/
def composeDoc (tocPageCount : Nat) (body : List α) (indexPageCount : Nat) : List (ModelPage α) :=
  List.replicate tocPageCount ⟨PageBase.tocBlank, []⟩
    ++ body.map (fun a => ⟨PageBase.bodyPage a, []⟩)
    ++ List.replicate indexPageCount ⟨PageBase.indexPage, []⟩

/-- In-place update of one list position (drawing touches one page). -/
def modifyAt (f : α → α) : Nat → List α → List α
  | _, [] => []
  | 0, x :: xs => f x :: xs
  | n + 1, x :: xs => x :: modifyAt f n xs

/-- Application of the Step 4 draws to the document: each draw lands on its
host page; no page is created or removed. -/
def applyTocDraws (doc : List (ModelPage α)) (ds : List TocDraw) : List (ModelPage α) :=
  ds.foldl (fun doc d => modifyAt (fun pg => { pg with placed := pg.placed ++ [d] }) (drawPage d) doc) doc

/-
Generic lemmas about the Array.prototype.sort model.
-/

theorem jsInsert_perm (le : α → α → Bool) (x : α) (l : List α) :
    (jsInsert le x l).Perm (x :: l) := by
  induction l with
  | nil => simp [jsInsert]
  | cons y ys ih =>
    by_cases h : le y x = true
    · simpa [jsInsert, h] using ((ih.cons y).trans (List.Perm.swap x y ys))
    · simp [jsInsert, h]

theorem jsSort_loop_perm (le : α → α → Bool) :
    ∀ (l acc : List α), (l.foldl (fun acc x => jsInsert le x acc) acc).Perm (acc ++ l) := by
  intro l
  induction l with
  | nil => intro acc; simp
  | cons x xs ih =>
    intro acc
    refine (ih (jsInsert le x acc)).trans ?_
    refine (((jsInsert_perm le x acc).append_right xs).trans ?_)
    exact List.perm_middle.symm.trans (by simp)

theorem jsSort_perm (le : α → α → Bool) (l : List α) : (jsSort le l).Perm l := by
  simpa [jsSort] using jsSort_loop_perm le l []

theorem mem_jsSort (le : α → α → Bool) (l : List α) (x : α) :
    x ∈ jsSort le l ↔ x ∈ l := (jsSort_perm le l).mem_iff

theorem jsInsert_append_of_all (le : α → α → Bool) (x : α) (l : List α)
    (h : ∀ y ∈ l, le y x = true) : jsInsert le x l = l ++ [x] := by
  induction l with
  | nil => rfl
  | cons y ys ih =>
    have hy : le y x = true := h y (by simp)
    simp [jsInsert, hy]
    exact ih (fun z hz => h z (by simp [hz]))

/-- A list already pairwise sorted for le is a fixed point of jsSort. -/
theorem jsSort_of_pairwise (le : α → α → Bool)
    {l : List α} (h : l.Pairwise (fun a b => le a b = true)) : jsSort le l = l := by
  suffices hgen : ∀ (l acc : List α), l.Pairwise (fun a b => le a b = true) →
      (∀ y ∈ acc, ∀ z ∈ l, le y z = true) → acc.Pairwise (fun a b => le a b = true) →
      l.foldl (fun acc x => jsInsert le x acc) acc = acc ++ l by
    simpa [jsSort] using hgen l [] h (by simp) (by simp)
  intro l
  induction l with
  | nil => intro acc _ _ _; simp
  | cons x xs ih =>
    intro acc hl hcross _hacc
    have hx : ∀ y ∈ acc, le y x = true := fun y hy => hcross y hy x (by simp)
    have hins : jsInsert le x acc = acc ++ [x] := jsInsert_append_of_all le x acc hx
    have hl' : xs.Pairwise (fun a b => le a b = true) := (List.pairwise_cons.mp hl).2
    have hxxs : ∀ z ∈ xs, le x z = true := (List.pairwise_cons.mp hl).1
    have hcross' : ∀ y ∈ acc ++ [x], ∀ z ∈ xs, le y z = true := by
      intro y hy z hz
      rcases List.mem_append.mp hy with hy | hy
      · exact hcross y hy z (by simp [hz])
      · simp at hy; subst hy; exact hxxs z hz
    have hacc' : (acc ++ [x]).Pairwise (fun a b => le a b = true) := by
      refine List.pairwise_append.mpr ⟨_hacc, by simp, ?_⟩
      intro y hy z hz; simp at hz; subst hz; exact hx y hy
    calc (x :: xs).foldl (fun acc x => jsInsert le x acc) acc
        = xs.foldl (fun acc x => jsInsert le x acc) (acc ++ [x]) := by simp [hins]
      _ = (acc ++ [x]) ++ xs := ih (acc ++ [x]) hl' hcross' hacc'
      _ = acc ++ x :: xs := by simp

/-- Insertion preserves adjacent sortedness when le is total on the elements
involved; no transitivity is required. -/
theorem jsInsert_chain (le : α → α → Bool) (x : α) :
    ∀ (l : List α), l.Chain' (fun a b => le a b = true) →
      (∀ y ∈ l, le y x = true ∨ le x y = true) →
      (jsInsert le x l).Chain' (fun a b => le a b = true) := by
  intro l
  induction l with
  | nil => intro _ _; simp [jsInsert]
  | cons y ys ih =>
    intro hch htot
    by_cases h : le y x = true
    · have hch' : ys.Chain' (fun a b => le a b = true) := hch.tail
      have htot' : ∀ z ∈ ys, le z x = true ∨ le x z = true :=
        fun z hz => htot z (by simp [hz])
      have hrec := ih hch' htot'
      rw [jsInsert, if_pos h]
      cases ys with
      | nil => simpa [jsInsert] using h
      | cons z zs =>
        by_cases hz : le z x = true
        · rw [jsInsert, if_pos hz] at hrec ⊢
          exact List.chain'_cons.mpr ⟨(List.chain'_cons.mp hch).1, hrec⟩
        · rw [jsInsert, if_neg hz] at hrec ⊢
          exact List.chain'_cons.mpr ⟨h, hrec⟩
    · have hxy : le x y = true := by
        rcases htot y (by simp) with h' | h'
        · exact absurd h' h
        · exact h'
      rw [jsInsert, if_neg h]
      exact hch.cons hxy

theorem jsSort_chain (le : α → α → Bool) (l : List α)
    (htot : ∀ a ∈ l, ∀ b ∈ l, le a b = true ∨ le b a = true) :
    (jsSort le l).Chain' (fun a b => le a b = true) := by
  suffices hgen : ∀ (l acc : List α),
      (∀ a, (a ∈ acc ∨ a ∈ l) → ∀ b, (b ∈ acc ∨ b ∈ l) → le a b = true ∨ le b a = true) →
      acc.Chain' (fun a b => le a b = true) →
      (l.foldl (fun acc x => jsInsert le x acc) acc).Chain' (fun a b => le a b = true) by
    exact hgen l [] (fun a ha b hb => htot a (by tauto) b (by tauto)) (by simp)
  intro l
  induction l with
  | nil => intro acc _ hacc; simpa
  | cons x xs ih =>
    intro acc htot2 hacc
    have hmem : ∀ a, a ∈ jsInsert le x acc ↔ (a = x ∨ a ∈ acc) := by
      intro a; simpa using (jsInsert_perm le x acc).mem_iff
    refine ih (jsInsert le x acc) ?_ ?_
    · intro a ha b hb
      refine htot2 a ?_ b ?_
      · rcases ha with ha | ha
        · rcases (hmem a).mp ha with rfl | h
          · exact Or.inr (by simp)
          · exact Or.inl h
        · exact Or.inr (by simp [ha])
      · rcases hb with hb | hb
        · rcases (hmem b).mp hb with rfl | h
          · exact Or.inr (by simp)
          · exact Or.inl h
        · exact Or.inr (by simp [hb])
    · refine jsInsert_chain le x acc hacc ?_
      intro y hy
      exact htot2 y (Or.inl hy) x (Or.inr (by simp))

/-- Insertion preserves full pairwise sortedness when le is total and
transitive on the elements involved. -/
theorem jsInsert_pairwise (le : α → α → Bool) (x : α) :
    ∀ (l : List α), l.Pairwise (fun a b => le a b = true) →
      (∀ y ∈ l, le y x = true ∨ le x y = true) →
      (∀ y ∈ l, ∀ z ∈ l, le x y = true → le y z = true → le x z = true) →
      (jsInsert le x l).Pairwise (fun a b => le a b = true) := by
  intro l
  induction l with
  | nil => intro _ _ _; simp [jsInsert]
  | cons y ys ih =>
    intro hpw htot htr
    by_cases h : le y x = true
    · rw [jsInsert, if_pos h]
      have hpw' := (List.pairwise_cons.mp hpw).2
      have hyrel := (List.pairwise_cons.mp hpw).1
      refine List.pairwise_cons.mpr ⟨?_, ?_⟩
      · intro z hz
        rcases List.mem_cons.mp ((jsInsert_perm le x ys).mem_iff.mp hz) with rfl | hzy
        · exact h
        · exact hyrel z hzy
      · refine ih hpw' (fun z hz => htot z (by simp [hz])) ?_
        intro a ha b hb h1 h2
        exact htr a (by simp [ha]) b (by simp [hb]) h1 h2
    · have hxy : le x y = true := by
        rcases htot y (by simp) with h' | h'
        · exact absurd h' h
        · exact h'
      rw [jsInsert, if_neg h]
      refine List.pairwise_cons.mpr ⟨?_, hpw⟩
      intro z hz
      rcases List.mem_cons.mp hz with rfl | hz'
      · exact hxy
      · exact htr y (by simp) z (by simp [hz']) hxy ((List.pairwise_cons.mp hpw).1 z hz')

theorem jsSort_pairwise (le : α → α → Bool) (l : List α)
    (htot : ∀ a ∈ l, ∀ b ∈ l, le a b = true ∨ le b a = true)
    (htr : ∀ a ∈ l, ∀ b ∈ l, ∀ c ∈ l, le a b = true → le b c = true → le a c = true) :
    (jsSort le l).Pairwise (fun a b => le a b = true) := by
  suffices hgen : ∀ (l acc : List α),
      (∀ a, (a ∈ acc ∨ a ∈ l) → ∀ b, (b ∈ acc ∨ b ∈ l) → le a b = true ∨ le b a = true) →
      (∀ a, (a ∈ acc ∨ a ∈ l) → ∀ b, (b ∈ acc ∨ b ∈ l) → ∀ c, (c ∈ acc ∨ c ∈ l) →
        le a b = true → le b c = true → le a c = true) →
      acc.Pairwise (fun a b => le a b = true) →
      (l.foldl (fun acc x => jsInsert le x acc) acc).Pairwise (fun a b => le a b = true) by
    exact hgen l [] (fun a ha b hb => htot a (by tauto) b (by tauto))
      (fun a ha b hb c hc => htr a (by tauto) b (by tauto) c (by tauto)) (by simp)
  intro l
  induction l with
  | nil => intro acc _ _ hacc; simpa
  | cons x xs ih =>
    intro acc htot2 htr2 hacc
    have hmem : ∀ a, a ∈ jsInsert le x acc ↔ (a = x ∨ a ∈ acc) := by
      intro a; simpa using (jsInsert_perm le x acc).mem_iff
    have hlift : ∀ a, (a ∈ jsInsert le x acc ∨ a ∈ xs) → (a ∈ acc ∨ a ∈ x :: xs) := by
      intro a ha
      rcases ha with ha | ha
      · rcases (hmem a).mp ha with rfl | h
        · exact Or.inr (by simp)
        · exact Or.inl h
      · exact Or.inr (by simp [ha])
    refine ih (jsInsert le x acc) ?_ ?_ ?_
    · intro a ha b hb; exact htot2 a (hlift a ha) b (hlift b hb)
    · intro a ha b hb c hc; exact htr2 a (hlift a ha) b (hlift b hb) c (hlift c hc)
    · refine jsInsert_pairwise le x acc hacc ?_ ?_
      · intro y hy; exact htot2 y (Or.inl hy) x (Or.inr (by simp))
      · intro y hy z hz h1 h2
        exact htr2 x (Or.inr (by simp)) y (Or.inl hy) z (Or.inl hz) h1 h2

/-
Comparator lemmas.
-/

theorem lexCmp_neg : ∀ (a b : List Char), lexCmp a b = -lexCmp b a := by
  intro a
  induction a with
  | nil => intro b; cases b <;> simp [lexCmp]
  | cons x xs ih =>
    intro b
    cases b with
    | nil => simp [lexCmp]
    | cons y ys =>
      by_cases h1 : x.toNat < y.toNat
      · have h2 : ¬ y.toNat < x.toNat := by omega
        simp [lexCmp, h1, h2]
      · by_cases h2 : y.toNat < x.toNat
        · simp [lexCmp, h1, h2]
        · simp [lexCmp, h1, h2, ih ys]

theorem lexCmp_le_total (a b : List Char) : lexCmp a b ≤ 0 ∨ lexCmp b a ≤ 0 := by
  rw [lexCmp_neg a b]; omega

theorem lexCmp_trans :
    ∀ (a b c : List Char), lexCmp a b ≤ 0 → lexCmp b c ≤ 0 → lexCmp a c ≤ 0 := by
  intro a
  induction a with
  | nil => intro b c _ _; cases c <;> simp [lexCmp]
  | cons x xs ih =>
    intro b c hab hbc
    cases b with
    | nil => simp [lexCmp] at hab
    | cons y ys =>
      cases c with
      | nil => simp [lexCmp] at hbc
      | cons z zs =>
        by_cases hxy : x.toNat < y.toNat
        · by_cases hyz : y.toNat < z.toNat
          · have hxz : x.toNat < z.toNat := by omega
            simp [lexCmp, hxz]
          · by_cases hzy : z.toNat < y.toNat
            · simp [lexCmp, hyz, hzy] at hbc
            · have hyz2 : y.toNat = z.toNat := by omega
              have hxz : x.toNat < z.toNat := by omega
              simp [lexCmp, hxz]
        · by_cases hyx : y.toNat < x.toNat
          · simp [lexCmp, hxy, hyx] at hab
          · have hxy2 : x.toNat = y.toNat := by omega
            by_cases hyz : y.toNat < z.toNat
            · have hxz : x.toNat < z.toNat := by omega
              simp [lexCmp, hxz]
            · by_cases hzy : z.toNat < y.toNat
              · simp [lexCmp, hyz, hzy] at hbc
              · have hxz1 : ¬ x.toNat < z.toNat := by omega
                have hxz2 : ¬ z.toNat < x.toNat := by omega
                simp [lexCmp, hxy, hyx] at hab
                simp [lexCmp, hyz, hzy] at hbc
                simp [lexCmp, hxz1, hxz2]
                exact ih ys zs hab hbc

theorem strCmp_le_total (a b : String) : strCmp a b ≤ 0 ∨ strCmp b a ≤ 0 :=
  lexCmp_le_total a.data b.data

theorem strCmp_trans (a b c : String) (h1 : strCmp a b ≤ 0) (h2 : strCmp b c ≤ 0) :
    strCmp a c ≤ 0 := lexCmp_trans a.data b.data c.data h1 h2

theorem tocCmp_neg (a b : TocEntry) : tocCmp a b = -tocCmp b a := by
  unfold tocCmp
  cases ha : getPageNum a.pageNumber with
  | none =>
    cases hb : getPageNum b.pageNumber with
    | none => exact lexCmp_neg _ _
    | some nB => exact lexCmp_neg _ _
  | some nA =>
    cases hb : getPageNum b.pageNumber with
    | none => exact lexCmp_neg _ _
    | some nB =>
      by_cases h : nA = nB
      · simp [h, lexCmp_neg a.pageNumber.data b.pageNumber.data, strCmp]
      · have h' : nB ≠ nA := fun hh => h hh.symm
        simp [h, h']

theorem tocLe_total (a b : TocEntry) : tocLe a b = true ∨ tocLe b a = true := by
  simp only [tocLe, decide_eq_true_eq]
  rw [tocCmp_neg a b]; omega

theorem pageCmp_neg (a b : String) : pageCmp a b = -pageCmp b a := by
  unfold pageCmp
  cases ha : jsParseInt a with
  | none =>
    cases hb : jsParseInt b with
    | none => exact lexCmp_neg _ _
    | some nB => exact lexCmp_neg _ _
  | some nA =>
    cases hb : jsParseInt b with
    | none => exact lexCmp_neg _ _
    | some nB => simp

theorem pageLe_total (a b : String) : pageLe a b = true ∨ pageLe b a = true := by
  simp only [pageLe, decide_eq_true_eq]
  rw [pageCmp_neg a b]; omega

theorem baseLe_total (a b : IndexEntry) : baseLe a b = true ∨ baseLe b a = true := by
  simp only [baseLe, baseCmp, decide_eq_true_eq]
  exact strCmp_le_total _ _

theorem baseLe_trans (a b c : IndexEntry) (h1 : baseLe a b = true) (h2 : baseLe b c = true) :
    baseLe a c = true := by
  simp only [baseLe, baseCmp, decide_eq_true_eq] at h1 h2 ⊢
  exact strCmp_trans _ _ _ h1 h2

/-- The index page comparator is transitive on references that all parse. -/
theorem pageLe_trans_of_parse {a b c : String}
    (ha : (jsParseInt a).isSome) (hb : (jsParseInt b).isSome) (hc : (jsParseInt c).isSome)
    (h1 : pageLe a b = true) (h2 : pageLe b c = true) : pageLe a c = true := by
  rcases Option.isSome_iff_exists.mp ha with ⟨nA, hA⟩
  rcases Option.isSome_iff_exists.mp hb with ⟨nB, hB⟩
  rcases Option.isSome_iff_exists.mp hc with ⟨nC, hC⟩
  simp only [pageLe, pageCmp, hA, hB, hC, decide_eq_true_eq] at h1 h2 ⊢
  omega

/-- The outline comparator is transitive on entries whose page references
all contain a digit run. -/
theorem tocLe_trans_of_num {a b c : TocEntry}
    (ha : (getPageNum a.pageNumber).isSome) (hb : (getPageNum b.pageNumber).isSome)
    (hc : (getPageNum c.pageNumber).isSome)
    (h1 : tocLe a b = true) (h2 : tocLe b c = true) : tocLe a c = true := by
  rcases Option.isSome_iff_exists.mp ha with ⟨nA, hA⟩
  rcases Option.isSome_iff_exists.mp hb with ⟨nB, hB⟩
  rcases Option.isSome_iff_exists.mp hc with ⟨nC, hC⟩
  simp only [tocLe, tocCmp, hA, hB, hC, decide_eq_true_eq] at h1 h2 ⊢
  by_cases hab : nA = nB
  · by_cases hbc : nB = nC
    · have hac : nA = nC := hab.trans hbc
      simp [hab, hbc, hac] at h1 h2 ⊢
      subst hab; subst hbc
      exact strCmp_trans _ _ _ h1 h2
    · subst hab
      simp [hbc] at h2 ⊢
      omega
  · by_cases hbc : nB = nC
    · subst hbc
      simp [hab] at h1 ⊢
      omega
    · simp [hab, hbc] at h1 h2
      have hac : nA ≠ nC := by omega
      simp [hac]
      omega

/-
Outline dedup lemmas (claim C1).
-/

theorem contains_eq_true_iff (l : List String) (a : String) : l.contains a = true ↔ a ∈ l := by
  simp

theorem dedupTocAux_filter_seen (k : String) :
    ∀ (l : List TocEntry) (seen : List String), k ∈ seen →
      (dedupTocAux l seen).filter (fun e => tocKey e == k) = [] := by
  intro l
  induction l with
  | nil => intro seen _; simp [dedupTocAux]
  | cons e es ih =>
    intro seen hk
    by_cases he : tocKey e ∈ seen
    · rw [dedupTocAux, if_pos ((contains_eq_true_iff seen (tocKey e)).mpr he)]
      exact ih seen hk
    · have hne : (tocKey e == k) = false := by
        cases hb : (tocKey e == k) with
        | false => rfl
        | true => exact absurd (by rwa [eq_of_beq hb]) he
      rw [dedupTocAux, if_neg (by simpa [contains_eq_true_iff] using he)]
      simp only [List.filter, hne]
      exact ih (tocKey e :: seen) (by simp [hk])

theorem dedupTocAux_filter_new (k : String) :
    ∀ (l : List TocEntry) (seen : List String), k ∉ seen →
      (dedupTocAux l seen).filter (fun e => tocKey e == k)
        = (l.find? (fun e => tocKey e == k)).toList := by
  intro l
  induction l with
  | nil => intro seen _; simp [dedupTocAux]
  | cons e es ih =>
    intro seen hk
    by_cases hek : (tocKey e == k) = true
    · have he : tocKey e ∉ seen := by rwa [eq_of_beq hek]
      rw [dedupTocAux, if_neg (by simpa [contains_eq_true_iff] using he)]
      simp only [List.filter, hek, List.find?, Option.toList]
      have hrest : (dedupTocAux es (tocKey e :: seen)).filter (fun e => tocKey e == k) = [] := by
        refine dedupTocAux_filter_seen k es (tocKey e :: seen) ?_
        simp [eq_of_beq hek]
      simp [hrest]
    · have hek' : (tocKey e == k) = false := by
        cases hb : (tocKey e == k) with
        | false => rfl
        | true => exact absurd hb hek
      have hkne : k ≠ tocKey e := by
        intro hcon
        rw [hcon] at hek'
        simp at hek'
      by_cases he : tocKey e ∈ seen
      · rw [dedupTocAux, if_pos ((contains_eq_true_iff seen (tocKey e)).mpr he)]
        rw [ih seen hk]
        simp [List.find?, hek']
      · rw [dedupTocAux, if_neg (by simpa [contains_eq_true_iff] using he)]
        simp only [List.filter, hek']
        rw [ih (tocKey e :: seen) (by simp [hk, hkne])]
        simp [List.find?, hek']

theorem filter_eq_of_perm_of_len_le_one {α : Type} {p : α → Bool} {l l' : List α}
    (h : l.Perm l') (hlen : (l.filter p).length ≤ 1) : l.filter p = l'.filter p := by
  have hp := h.filter p
  cases hfe : l.filter p with
  | nil =>
    rw [hfe] at hp
    exact (hp.symm.eq_nil).symm
  | cons a rest =>
    cases rest with
    | nil =>
      rw [hfe] at hp
      exact (List.perm_singleton.mp hp.symm).symm
    | cons b rest2 => rw [hfe] at hlen; simp at hlen

/-- C1: under the outline dedup, the consolidated outline holds exactly one
entry per dedup key present in the input, namely the first occurrence in
flattened batch order; in particular two "Chapter 1" level-1 entries at
pages 5 and 40 collapse to the single entry at page 5. -/
theorem c1_outline_dedup_first_occurrence :
    (∀ (results : List AnalysisResult) (k : String),
      (mergeAnalysisResults results).toc.filter (fun e => tocKey e == k)
        = (((results.map (fun r => r.toc)).flatten).find? (fun e => tocKey e == k)).toList)
    ∧ (mergeAnalysisResults [⟨[⟨"Chapter 1", 1, "5"⟩, ⟨"Chapter 1", 1, "40"⟩], []⟩]).toc
        = [⟨"Chapter 1", 1, "5"⟩] := by
  constructor
  · intro results k
    have hded := dedupTocAux_filter_new k ((results.map (fun r => r.toc)).flatten) []
      (List.not_mem_nil k)
    have hperm : (mergeAnalysisResults results).toc.Perm
        (dedupTocAux ((results.map (fun r => r.toc)).flatten) []) :=
      jsSort_perm tocLe _
    have hlen : ((dedupTocAux ((results.map (fun r => r.toc)).flatten) []).filter
        (fun e => tocKey e == k)).length ≤ 1 := by
      rw [hded]
      cases ((results.map (fun r => r.toc)).flatten).find? (fun e => tocKey e == k) <;> simp
    rw [← filter_eq_of_perm_of_len_le_one hperm.symm hlen]
    exact hded
  · decide

/-
Outline sort (claim C4).
-/

theorem dedupTocAux_subset : ∀ (l : List TocEntry) (seen : List String),
    ∀ e ∈ dedupTocAux l seen, e ∈ l := by
  intro l
  induction l with
  | nil => intro seen e he; simp [dedupTocAux] at he
  | cons x xs ih =>
    intro seen e he
    rw [dedupTocAux] at he
    by_cases hx : xs.isEmpty
    all_goals {
      rcases hcond : (seen.contains (tocKey x)) with _ | _
      · rw [hcond] at he
        simp at he
        rcases he with rfl | he
        · simp
        · simp [ih (tocKey x :: seen) e he]
      · rw [hcond] at he
        simp [ih seen e he] }

/-- Ordering asserted by claim C4 for a pair of outline entries in output
order: ascending numeric parts when both page references contain a digit
run, full-text lexicographic otherwise, and an entry without a digit run
never precedes one with a digit run. -/
def c4PairB (a b : TocEntry) : Bool :=
  match getPageNum a.pageNumber, getPageNum b.pageNumber with
  | some m, some n => m ≤ n
  | some _, none => strCmp a.pageNumber b.pageNumber ≤ 0
  | none, some _ => false
  | none, none => strCmp a.pageNumber b.pageNumber ≤ 0

/-- C4 counterexample: with page references "A", "Z1", "9" the consolidated
outline is not ordered as the claim states: the digit-run pair ("9", "Z1")
appears with numeric parts 9 before 1, and the non-numeric "A" entry
precedes the numeric "Z1" entry. -/
theorem c4_outline_sort_counterexample :
    ¬ ((mergeAnalysisResults [⟨[⟨"a", 1, "A"⟩, ⟨"b", 1, "Z1"⟩, ⟨"c", 1, "9"⟩], []⟩]).toc.Pairwise
        (fun a b => c4PairB a b = true)) := by decide

/-- C4 amended: after dedup, adjacent outline entries satisfy the source
comparator (ascending numeric parts when both references contain digit runs
with distinct values, otherwise full-text lexicographic comparison); when
every input page reference contains a digit run the whole outline is
pairwise so ordered.  Non-numeric references are ordered against numeric
ones lexicographically, not placed after them. -/
theorem c4_outline_sort_amended :
    (∀ results : List AnalysisResult,
      (mergeAnalysisResults results).toc.Chain' (fun a b => tocLe a b = true))
    ∧ (∀ results : List AnalysisResult,
      (∀ e ∈ (results.map (fun r => r.toc)).flatten, (getPageNum e.pageNumber).isSome) →
      (mergeAnalysisResults results).toc.Pairwise (fun a b => tocLe a b = true)) := by
  constructor
  · intro results
    exact jsSort_chain tocLe _ (fun a _ b _ => tocLe_total a b)
  · intro results hnum
    refine jsSort_pairwise tocLe _ (fun a _ b _ => tocLe_total a b) ?_
    intro a ha b hb c hc h1 h2
    exact tocLe_trans_of_num (hnum a (dedupTocAux_subset _ _ a ha))
      (hnum b (dedupTocAux_subset _ _ b hb)) (hnum c (dedupTocAux_subset _ _ c hc)) h1 h2

theorem c4_outline_sort_amended_witness :
    ((mergeAnalysisResults [⟨[⟨"a", 1, "10"⟩, ⟨"b", 1, "2"⟩], []⟩]).toc.Chain'
      (fun a b => tocLe a b = true))
    ∧ ((mergeAnalysisResults [⟨[⟨"a", 1, "10"⟩, ⟨"b", 1, "2"⟩], []⟩]).toc.Pairwise
      (fun a b => tocLe a b = true)) :=
  ⟨c4_outline_sort_amended.1 _, c4_outline_sort_amended.2 _ (by decide)⟩

/-
Index map characterization.
-/

/-- Entries of the flattened input that contribute to the group of key k:
non-empty trimmed term whose lowercase is k. -/
def contribsB (k : String) (e : IndexEntry) : Bool :=
  (!(jsTrim e.term == "")) && (jsToLower (jsTrim e.term) == k)

/-- Effect of one contributing entry on its group record. -/
def applyContrib (r : IndexRecord) (e : IndexEntry) : IndexRecord :=
  recInsert (jsTrim e.term) e.pageNumbers r

/-- indexMap.get on the association-list model. -/
def mapFind? (m : List (String × IndexRecord)) (k : String) : Option IndexRecord :=
  (m.find? (fun kr => kr.1 == k)).map (fun kr => kr.2)

def mapKeys (m : List (String × IndexRecord)) : List String := m.map (fun kr => kr.1)

theorem mapFind?_mapUpdate_self (m : List (String × IndexRecord)) (k : String)
    (f : IndexRecord → IndexRecord) :
    mapFind? (mapUpdate m k f) k = some (f ((mapFind? m k).getD ⟨[], []⟩)) := by
  induction m with
  | nil => simp [mapUpdate, mapFind?, List.find?]
  | cons kr rest ih =>
    by_cases h : kr.1 = k
    · simp [mapUpdate, h, mapFind?, List.find?]
    · have hb : (kr.1 == k) = false := by simp [h]
      simp only [mapUpdate, if_neg h]
      simp [mapFind?, List.find?, hb] at ih ⊢
      exact ih

theorem mapFind?_mapUpdate_other (m : List (String × IndexRecord)) (k k' : String)
    (f : IndexRecord → IndexRecord) (h : k' ≠ k) :
    mapFind? (mapUpdate m k f) k' = mapFind? m k' := by
  induction m with
  | nil =>
    have : (k == k') = false := by
      cases hb : (k == k') with
      | false => rfl
      | true => exact absurd (eq_of_beq hb).symm h
    simp [mapUpdate, mapFind?, List.find?, this]
  | cons kr rest ih =>
    by_cases hk : kr.1 = k
    · have hkk' : (k == k') = false := by
        cases hb : (k == k') with
        | false => rfl
        | true => exact absurd (eq_of_beq hb).symm h
      simp [mapUpdate, hk, mapFind?, List.find?, hkk']
    · have hb : (kr.1 == k) = false := by simp [hk]
      simp only [mapUpdate, if_neg hk]
      by_cases hk' : kr.1 = k'
      · simp [mapFind?, List.find?, hk']
      · have hb' : (kr.1 == k') = false := by simp [hk']
        simp [mapFind?, List.find?, hb'] at ih ⊢
        exact ih

theorem mapKeys_mapUpdate (m : List (String × IndexRecord)) (k : String)
    (f : IndexRecord → IndexRecord) :
    mapKeys (mapUpdate m k f) = if k ∈ mapKeys m then mapKeys m else mapKeys m ++ [k] := by
  induction m with
  | nil => simp [mapUpdate, mapKeys]
  | cons kr rest ih =>
    by_cases h : kr.1 = k
    · simp [mapUpdate, h, mapKeys]
    · simp only [mapUpdate, if_neg h]
      have hne : ¬ k = kr.1 := fun hc => h hc.symm
      simp [mapKeys, hne] at ih ⊢
      rw [ih]
      by_cases hm : k ∈ List.map (fun kr => kr.1) rest <;> simp [hm, hne]

theorem nodup_mapKeys_mapUpdate (m : List (String × IndexRecord)) (k : String)
    (f : IndexRecord → IndexRecord) (h : (mapKeys m).Nodup) :
    (mapKeys (mapUpdate m k f)).Nodup := by
  rw [mapKeys_mapUpdate]
  by_cases hm : k ∈ mapKeys m
  · rw [if_pos hm]; exact h
  · rw [if_neg hm]
    refine List.Nodup.append h (by simp) ?_
    intro a ha hb
    simp at hb
    subst hb
    exact hm ha

theorem indexFold_find (l : List IndexEntry) : ∀ (m : List (String × IndexRecord)) (k : String),
    mapFind? (l.foldl insertIndexEntry m) k
      = if mapFind? m k = none ∧ l.filter (contribsB k) = [] then none
        else some ((l.filter (contribsB k)).foldl applyContrib ((mapFind? m k).getD ⟨[], []⟩)) := by
  induction l with
  | nil =>
    intro m k
    cases h : mapFind? m k <;> simp [h]
  | cons e es ih =>
    intro m k
    by_cases ht : jsTrim e.term = ""
    · have hc : contribsB k e = false := by simp [contribsB, ht]
      have hm : insertIndexEntry m e = m := by simp [insertIndexEntry, ht]
      simp only [List.foldl_cons, hm, List.filter, hc]
      exact ih m k
    · by_cases hkey : jsToLower (jsTrim e.term) = k
      · have hc : contribsB k e = true := by simp [contribsB, ht, hkey]
        have hm : insertIndexEntry m e
            = mapUpdate m k (recInsert (jsTrim e.term) e.pageNumbers) := by
          simp [insertIndexEntry, ht, hkey]
        simp only [List.foldl_cons, hm, List.filter, hc]
        rw [ih (mapUpdate m k (recInsert (jsTrim e.term) e.pageNumbers)) k]
        rw [mapFind?_mapUpdate_self]
        simp only [Option.getD_some]
        have hrec : recInsert (jsTrim e.term) e.pageNumbers ((mapFind? m k).getD ⟨[], []⟩)
            = applyContrib ((mapFind? m k).getD ⟨[], []⟩) e := rfl
        rw [hrec]
        simp
      · have hc : contribsB k e = false := by simp [contribsB, ht, hkey]
        have hm : insertIndexEntry m e
            = mapUpdate m (jsToLower (jsTrim e.term)) (recInsert (jsTrim e.term) e.pageNumbers) := by
          simp [insertIndexEntry, ht]
        simp only [List.foldl_cons, hm, List.filter, hc]
        rw [ih _ k]
        rw [mapFind?_mapUpdate_other _ _ _ _ (fun hck => hkey hck.symm)]

theorem nodup_mapKeys_indexFold (l : List IndexEntry) :
    ∀ m, (mapKeys m).Nodup → (mapKeys (l.foldl insertIndexEntry m)).Nodup := by
  induction l with
  | nil => intro m hm; simpa
  | cons e es ih =>
    intro m hm
    simp only [List.foldl_cons]
    refine ih _ ?_
    by_cases ht : jsTrim e.term = ""
    · simpa [insertIndexEntry, ht]
    · rw [show insertIndexEntry m e
          = mapUpdate m (jsToLower (jsTrim e.term)) (recInsert (jsTrim e.term) e.pageNumbers) by
        simp [insertIndexEntry, ht]]
      exact nodup_mapKeys_mapUpdate _ _ _ hm

theorem nodup_mapKeys_buildIndexMap (l : List IndexEntry) : (mapKeys (buildIndexMap l)).Nodup :=
  nodup_mapKeys_indexFold l [] (by simp [mapKeys])

theorem mapFind?_of_mem : ∀ {m : List (String × IndexRecord)}, (mapKeys m).Nodup →
    ∀ {k : String} {r : IndexRecord}, (k, r) ∈ m → mapFind? m k = some r := by
  intro m
  induction m with
  | nil => intro _ k r h; simp at h
  | cons kr rest ih =>
    intro hnd k r hmem
    rcases List.mem_cons.mp hmem with heq | hmem'
    · rw [← heq]
      simp [mapFind?, List.find?]
    · have hk : k ∈ mapKeys rest := by
        simp only [mapKeys]
        exact List.mem_map.mpr ⟨(k, r), hmem', rfl⟩
      have hnd' : (kr.1 :: mapKeys rest).Nodup := hnd
      have hne : kr.1 ≠ k := by
        intro hc
        have hhead := (List.nodup_cons.mp hnd').1
        rw [hc] at hhead
        exact hhead hk
      have hb : (kr.1 == k) = false := by simp [hne]
      have htl : (mapKeys rest).Nodup := (List.nodup_cons.mp hnd').2
      simp only [mapFind?, List.find?, hb]
      exact ih htl hmem'

theorem buildIndexMap_find (l : List IndexEntry) (k : String) :
    mapFind? (buildIndexMap l) k
      = if l.filter (contribsB k) = [] then none
        else some ((l.filter (contribsB k)).foldl applyContrib ⟨[], []⟩) := by
  have h := indexFold_find l [] k
  have hnil : mapFind? [] k = none := by simp [mapFind?, List.find?]
  rw [hnil] at h
  simpa [buildIndexMap] using h

/-
Page-set lemmas.
-/

theorem mem_addPage (ps : List String) (p q : String) :
    q ∈ addPage ps p ↔ q ∈ ps ∨ q = p := by
  unfold addPage
  by_cases h : p ∈ ps
  · rw [if_pos (by simpa using h)]
    constructor
    · exact Or.inl
    · rintro (hq | rfl)
      · exact hq
      · exact h
  · rw [if_neg (by simpa using h)]
    simp

theorem nodup_addPage (ps : List String) (p : String) (h : ps.Nodup) : (addPage ps p).Nodup := by
  unfold addPage
  by_cases hp : p ∈ ps
  · rwa [if_pos (by simpa using hp)]
  · rw [if_neg (by simpa using hp)]
    refine List.Nodup.append h (by simp) ?_
    intro a ha hb
    simp at hb
    subst hb
    exact hp ha

theorem addPage_eq_self (ps : List String) (p : String) (h : p ∈ ps) : addPage ps p = ps := by
  unfold addPage
  rw [if_pos (by simpa using h)]

theorem mem_addPages (l : List String) : ∀ (ps : List String) (q : String),
    q ∈ addPages ps l ↔ q ∈ ps ∨ q ∈ l := by
  induction l with
  | nil => intro ps q; simp [addPages]
  | cons x xs ih =>
    intro ps q
    have hstep : addPages ps (x :: xs) = addPages (addPage ps x) xs := rfl
    rw [hstep, ih (addPage ps x) q, mem_addPage]
    constructor
    · rintro ((hq | rfl) | hq)
      · exact Or.inl hq
      · exact Or.inr (by simp)
      · exact Or.inr (by simp [hq])
    · rintro (hq | hq)
      · exact Or.inl (Or.inl hq)
      · rcases List.mem_cons.mp hq with rfl | hq'
        · exact Or.inl (Or.inr rfl)
        · exact Or.inr hq'

theorem nodup_addPages (l : List String) : ∀ ps, ps.Nodup → (addPages ps l).Nodup := by
  induction l with
  | nil => intro ps h; simpa [addPages]
  | cons x xs ih =>
    intro ps h
    exact ih (addPage ps x) (nodup_addPage ps x h)

theorem addPages_eq_self (l : List String) : ∀ ps, (∀ p ∈ l, p ∈ ps) → addPages ps l = ps := by
  induction l with
  | nil => intro ps _; rfl
  | cons x xs ih =>
    intro ps h
    have hx : addPage ps x = ps := addPage_eq_self ps x (h x (by simp))
    have hstep : addPages ps (x :: xs) = addPages (addPage ps x) xs := rfl
    rw [hstep, hx]
    exact ih ps (fun p hp => h p (by simp [hp]))

theorem applyContrib_foldl_pages (cs : List IndexEntry) : ∀ r0 : IndexRecord,
    (cs.foldl applyContrib r0).pageNumbers
      = cs.foldl (fun ps e => addPages ps e.pageNumbers) r0.pageNumbers := by
  induction cs with
  | nil => intro r0; rfl
  | cons e es ih =>
    intro r0
    exact ih (applyContrib r0 e)

theorem applyContrib_foldl_variants (cs : List IndexEntry) : ∀ r0 : IndexRecord,
    (cs.foldl applyContrib r0).termVariants
      = cs.foldl (fun vs e => bumpVariant vs (jsTrim e.term)) r0.termVariants := by
  induction cs with
  | nil => intro r0; rfl
  | cons e es ih =>
    intro r0
    exact ih (applyContrib r0 e)

theorem mem_pagesFold (cs : List IndexEntry) : ∀ (ps0 : List String) (q : String),
    q ∈ cs.foldl (fun ps e => addPages ps e.pageNumbers) ps0
      ↔ q ∈ ps0 ∨ ∃ e ∈ cs, q ∈ e.pageNumbers := by
  induction cs with
  | nil => intro ps0 q; simp
  | cons e es ih =>
    intro ps0 q
    simp only [List.foldl_cons]
    rw [ih (addPages ps0 e.pageNumbers) q, mem_addPages]
    constructor
    · rintro ((hq | hq) | ⟨f, hf, hq⟩)
      · exact Or.inl hq
      · exact Or.inr ⟨e, by simp, hq⟩
      · exact Or.inr ⟨f, by simp [hf], hq⟩
    · rintro (hq | ⟨f, hf, hq⟩)
      · exact Or.inl (Or.inl hq)
      · rcases List.mem_cons.mp hf with rfl | hf'
        · exact Or.inl (Or.inr hq)
        · exact Or.inr ⟨f, hf', hq⟩

theorem nodup_pagesFold (cs : List IndexEntry) : ∀ (ps0 : List String), ps0.Nodup →
    (cs.foldl (fun ps e => addPages ps e.pageNumbers) ps0).Nodup := by
  induction cs with
  | nil => intro ps0 h; simpa
  | cons e es ih =>
    intro ps0 h
    exact ih _ (nodup_addPages _ _ h)

/-
Variant-count lemmas.
-/

def vKeys (vs : List (String × Nat)) : List String := vs.map (fun p => p.1)

def vCount (vs : List (String × Nat)) (v : String) : Nat :=
  ((vs.find? (fun p => p.1 == v)).map (fun p => p.2)).getD 0

theorem vKeys_bumpVariant (vs : List (String × Nat)) (v : String) :
    vKeys (bumpVariant vs v) = if v ∈ vKeys vs then vKeys vs else vKeys vs ++ [v] := by
  induction vs with
  | nil => simp [bumpVariant, vKeys]
  | cons p rest ih =>
    obtain ⟨w, d⟩ := p
    by_cases h : w = v
    · rw [show bumpVariant ((w, d) :: rest) v = (w, d + 1) :: rest from by
        simp [bumpVariant, h]]
      simp [vKeys, h]
    · rw [show bumpVariant ((w, d) :: rest) v = (w, d) :: bumpVariant rest v from by
        simp [bumpVariant, h]]
      have hne : ¬ v = w := fun hc => h hc.symm
      simp only [vKeys, List.map_cons] at ih ⊢
      rw [ih]
      by_cases hm : v ∈ List.map (fun p => p.1) rest <;> simp [hm, hne]

theorem nodup_vKeys_bumpVariant (vs : List (String × Nat)) (v : String)
    (h : (vKeys vs).Nodup) : (vKeys (bumpVariant vs v)).Nodup := by
  rw [vKeys_bumpVariant]
  by_cases hm : v ∈ vKeys vs
  · rwa [if_pos hm]
  · rw [if_neg hm]
    refine List.Nodup.append h (by simp) ?_
    intro a ha hb
    simp at hb
    subst hb
    exact hm ha

theorem vCount_bumpVariant_self (vs : List (String × Nat)) (v : String) :
    vCount (bumpVariant vs v) v = vCount vs v + 1 := by
  induction vs with
  | nil => simp [bumpVariant, vCount, List.find?]
  | cons p rest ih =>
    obtain ⟨w, d⟩ := p
    by_cases h : w = v
    · rw [show bumpVariant ((w, d) :: rest) v = (w, d + 1) :: rest from by
        simp [bumpVariant, h]]
      simp [vCount, List.find?, h]
    · rw [show bumpVariant ((w, d) :: rest) v = (w, d) :: bumpVariant rest v from by
        simp [bumpVariant, h]]
      have hb : (w == v) = false := by simp [h]
      simp only [vCount, List.find?, hb] at ih ⊢
      exact ih

theorem vCount_bumpVariant_other (vs : List (String × Nat)) (v w : String) (h : w ≠ v) :
    vCount (bumpVariant vs v) w = vCount vs w := by
  induction vs with
  | nil =>
    have hb : (v == w) = false := by
      cases hc : (v == w) with
      | false => rfl
      | true => exact absurd (eq_of_beq hc).symm h
    simp [bumpVariant, vCount, List.find?, hb]
  | cons p rest ih =>
    obtain ⟨u, d⟩ := p
    by_cases hp : u = v
    · rw [show bumpVariant ((u, d) :: rest) v = (u, d + 1) :: rest from by
        simp [bumpVariant, hp]]
      have hb : (u == w) = false := by
        rw [hp]
        cases hc : (v == w) with
        | false => rfl
        | true => exact absurd (eq_of_beq hc).symm h
      simp [vCount, List.find?, hb]
    · rw [show bumpVariant ((u, d) :: rest) v = (u, d) :: bumpVariant rest v from by
        simp [bumpVariant, hp]]
      by_cases hw : u = w
      · simp [vCount, List.find?, hw]
      · have hb : (u == w) = false := by simp [hw]
        simp only [vCount, List.find?, hb] at ih ⊢
        exact ih

theorem mem_variant_iff (vs : List (String × Nat)) (hnd : (vKeys vs).Nodup) (x : String) (c : Nat) :
    (x, c) ∈ vs ↔ x ∈ vKeys vs ∧ c = vCount vs x := by
  induction vs with
  | nil => simp [vKeys, vCount, List.find?]
  | cons p rest ih =>
    obtain ⟨w, d⟩ := p
    have hnd' : (w :: vKeys rest).Nodup := hnd
    have hhead : w ∉ vKeys rest := (List.nodup_cons.mp hnd').1
    have htl : (vKeys rest).Nodup := (List.nodup_cons.mp hnd').2
    by_cases hx : w = x
    · subst hx
      have hfind : vCount ((w, d) :: rest) w = d := by simp [vCount, List.find?]
      constructor
      · intro hmem
        rcases List.mem_cons.mp hmem with heq | hmem2
        · have hc : c = d := by
            have := congrArg Prod.snd heq
            simpa using this
          exact ⟨by simp [vKeys], by rw [hfind, hc]⟩
        · exact absurd (List.mem_map.mpr ⟨(w, c), hmem2, rfl⟩) hhead
      · rintro ⟨_, hc⟩
        rw [hfind] at hc
        subst hc
        simp
    · have hb : (w == x) = false := by simp [hx]
      have hxw : ¬ x = w := fun hc => hx hc.symm
      have hcount : vCount ((w, d) :: rest) x = vCount rest x := by
        simp [vCount, List.find?, hb]
      rw [hcount]
      constructor
      · intro hmem
        rcases List.mem_cons.mp hmem with heq | hmem2
        · exact absurd (by simpa using congrArg Prod.fst heq) hxw
        · have hres := (ih htl).mp hmem2
          exact ⟨List.mem_cons.mpr (Or.inr hres.1), hres.2⟩
      · rintro ⟨hk, hc⟩
        have hk0 : x ∈ w :: vKeys rest := hk
        have hk1 : x ∈ vKeys rest := by
          rcases List.mem_cons.mp hk0 with heq | hmemk
          · exact absurd heq hxw
          · exact hmemk
        exact List.mem_cons.mpr (Or.inr ((ih htl).mpr ⟨hk1, hc⟩))

theorem mem_vKeys_bumpVariant (vs : List (String × Nat)) (w v : String) :
    v ∈ vKeys (bumpVariant vs w) ↔ v ∈ vKeys vs ∨ v = w := by
  rw [vKeys_bumpVariant]
  by_cases h : w ∈ vKeys vs
  · rw [if_pos h]
    constructor
    · exact Or.inl
    · rintro (hv | rfl)
      · exact hv
      · exact h
  · rw [if_neg h]
    simp

theorem vCount_variantsFold (cs : List IndexEntry) (v : String) : ∀ vs0 : List (String × Nat),
    vCount (cs.foldl (fun vs e => bumpVariant vs (jsTrim e.term)) vs0) v
      = vCount vs0 v + cs.countP (fun e => jsTrim e.term == v) := by
  induction cs with
  | nil => intro vs0; simp
  | cons e es ih =>
    intro vs0
    simp only [List.foldl_cons]
    rw [ih (bumpVariant vs0 (jsTrim e.term))]
    by_cases h : jsTrim e.term = v
    · rw [h, vCount_bumpVariant_self, List.countP_cons]
      simp [h]
      omega
    · rw [vCount_bumpVariant_other _ _ _ (fun hc => h hc.symm), List.countP_cons]
      simp [h]

theorem mem_vKeys_variantsFold (cs : List IndexEntry) (v : String) : ∀ vs0 : List (String × Nat),
    v ∈ vKeys (cs.foldl (fun vs e => bumpVariant vs (jsTrim e.term)) vs0)
      ↔ v ∈ vKeys vs0 ∨ ∃ e ∈ cs, jsTrim e.term = v := by
  induction cs with
  | nil => intro vs0; simp
  | cons e es ih =>
    intro vs0
    simp only [List.foldl_cons]
    rw [ih (bumpVariant vs0 (jsTrim e.term)), mem_vKeys_bumpVariant]
    constructor
    · rintro ((hv | rfl) | ⟨f, hf, hfv⟩)
      · exact Or.inl hv
      · exact Or.inr ⟨e, by simp, rfl⟩
      · exact Or.inr ⟨f, by simp [hf], hfv⟩
    · rintro (hv | ⟨f, hf, hfv⟩)
      · exact Or.inl (Or.inl hv)
      · rcases List.mem_cons.mp hf with rfl | hf'
        · exact Or.inl (Or.inr hfv.symm)
        · exact Or.inr ⟨f, hf', hfv⟩

theorem nodup_vKeys_variantsFold (cs : List IndexEntry) : ∀ vs0 : List (String × Nat),
    (vKeys vs0).Nodup →
    (vKeys (cs.foldl (fun vs e => bumpVariant vs (jsTrim e.term)) vs0)).Nodup := by
  induction cs with
  | nil => intro vs0 h; simpa
  | cons e es ih =>
    intro vs0 h
    exact ih _ (nodup_vKeys_bumpVariant _ _ h)

/-
Display-form vote lemmas (claim C3).
-/

/-- Invariant of the vote fold after processing the variants P: the
accumulator names a variant whose stored count equals maxCount, maxCount
dominates every processed count, and whenever a processed variant ties the
maximum with an upper-kept first character, the accumulator also has one. -/
def VoteInv (P : List (String × Nat)) (a : String × Int) : Prop :=
  (∃ c : Nat, (a.1, c) ∈ P ∧ (c : Int) = a.2)
  ∧ (∀ p ∈ P, (p.2 : Int) ≤ a.2)
  ∧ (∀ p ∈ P, (p.2 : Int) = a.2 → firstCharKeepsCase p.1 = true → firstCharKeepsCase a.1 = true)

theorem voteStep_inv (P : List (String × Nat)) (a : String × Int) (vc : String × Nat)
    (h : VoteInv P a) : VoteInv (P ++ [vc]) (voteStep a vc) := by
  obtain ⟨⟨c0, hc0, hc0v⟩, hle, htie⟩ := h
  unfold voteStep
  split_ifs with h1 h2
  · refine ⟨⟨vc.2, by simp, rfl⟩, ?_, ?_⟩
    · intro p hp
      rcases List.mem_append.mp hp with hp | hp
      · exact le_trans (hle p hp) (le_of_lt h1)
      · simp at hp; subst hp; exact le_refl _
    · intro p hp hpc hpf
      rcases List.mem_append.mp hp with hp | hp
      · have := hle p hp
        omega
      · simp at hp; subst hp; exact hpf
  · refine ⟨⟨vc.2, by simp, h2.1⟩, ?_, ?_⟩
    · intro p hp
      rcases List.mem_append.mp hp with hp | hp
      · exact hle p hp
      · simp at hp; subst hp; exact le_of_eq h2.1
    · intro p hp hpc hpf
      exact h2.2
  · refine ⟨⟨c0, by simp [hc0], hc0v⟩, ?_, ?_⟩
    · intro p hp
      rcases List.mem_append.mp hp with hp | hp
      · exact hle p hp
      · simp at hp; subst hp; omega
    · intro p hp hpc hpf
      rcases List.mem_append.mp hp with hp | hp
      · exact htie p hp hpc hpf
      · simp at hp; subst hp
        exact absurd ⟨hpc, hpf⟩ h2

theorem voteFold_inv (vs : List (String × Nat)) : ∀ (P : List (String × Nat)) (a : String × Int),
    VoteInv P a → VoteInv (P ++ vs) (vs.foldl voteStep a) := by
  induction vs with
  | nil => intro P a h; simpa
  | cons vc rest ih =>
    intro P a h
    have hres := ih (P ++ [vc]) (voteStep a vc) (voteStep_inv P a vc h)
    simpa using hres

theorem voteFold_spec (v : String × Nat) (rest : List (String × Nat)) :
    VoteInv (v :: rest) ((v :: rest).foldl voteStep ("", -1)) := by
  have hstep : voteStep ("", -1) v = (v.1, (v.2 : Int)) := by
    unfold voteStep
    rw [if_pos (by have := Int.natCast_nonneg v.2; omega)]
  have hbase : VoteInv [v] (v.1, (v.2 : Int)) := by
    refine ⟨⟨v.2, by simp, rfl⟩, by simp, ?_⟩
    intro p hp _ hpf
    simp at hp; subst hp; exact hpf
  have hres := voteFold_inv rest [v] (v.1, (v.2 : Int)) hbase
  simpa [hstep] using hres

/-
Character-case lemmas for the tie-break analysis (claim C3).
-/

theorem char_toNat_ofNat {n : Nat} (h : n.isValidChar) : (Char.ofNat n).toNat = n := by
  simp [Char.ofNat, h, Char.ofNatAux, Char.toNat, UInt32.toNat, UInt32.ofNatCore]

theorem char_toNat_inj {c d : Char} (h : c.toNat = d.toNat) : c = d := by
  have hc := Char.ofNat_toNat c
  rw [h, Char.ofNat_toNat d] at hc
  exact hc.symm

theorem char_isUpper_iff (c : Char) : c.isUpper = true ↔ 65 ≤ c.toNat ∧ c.toNat ≤ 90 := by
  simp [Char.isUpper]
  exact Iff.rfl

/-- An uppercase letter is fixed by toUpperCase. -/
theorem toUpper_of_isUpper {c : Char} (h : c.isUpper = true) : c.toUpper = c := by
  rw [char_isUpper_iff] at h
  have h2 : ¬ (c.toNat ≥ 97 ∧ c.toNat ≤ 122) := by omega
  simp [Char.toUpper, h2]

theorem toLower_of_isUpper {c : Char} (h : c.isUpper = true) :
    (Char.toLower c).toNat = c.toNat + 32 := by
  rw [char_isUpper_iff] at h
  have h2 : c.toNat ≥ 65 ∧ c.toNat ≤ 90 := h
  have hv : (c.toNat + 32).isValidChar := Or.inl (by omega)
  have heq : Char.toLower c = Char.ofNat (c.toNat + 32) := by simp [Char.toLower, h2]
  rw [heq, char_toNat_ofNat hv]

theorem toLower_of_not_upper {c : Char} (h : ¬ (65 ≤ c.toNat ∧ c.toNat ≤ 90)) :
    Char.toLower c = c := by
  simp [Char.toLower]
  intro h1 h2
  exact absurd ⟨h1, h2⟩ h

/-- Two characters with the same lowercase image, the first of which is an
uppercase letter: if the second is fixed by toUpperCase it is that same
uppercase letter. -/
theorem upper_of_toLower_eq {c d : Char} (hl : Char.toLower d = Char.toLower c)
    (hc : c.isUpper = true) (hd : d.toUpper = d) : d.isUpper = true := by
  have hcn := toLower_of_isUpper hc
  by_cases hdu : 65 ≤ d.toNat ∧ d.toNat ≤ 90
  · exact (char_isUpper_iff d).mpr hdu
  · exfalso
    have hdl : Char.toLower d = d := toLower_of_not_upper hdu
    rw [hdl] at hl
    have hdn : d.toNat = c.toNat + 32 := by rw [hl]; exact hcn
    have hcu := (char_isUpper_iff c).mp hc
    have hdr : d.toNat ≥ 97 ∧ d.toNat ≤ 122 := by omega
    have hv : (d.toNat - 32).isValidChar := Or.inl (by omega)
    have hup : d.toUpper = Char.ofNat (d.toNat - 32) := by simp [Char.toUpper, hdr]
    rw [hup] at hd
    have := char_toNat_ofNat hv
    rw [hd] at this
    omega

/-
Trim idempotence.
-/

theorem dropWhile_idem (w : Char → Bool) (l : List Char) :
    (l.dropWhile w).dropWhile w = l.dropWhile w := by
  induction l with
  | nil => rfl
  | cons c cs ih =>
    by_cases h : w c = true
    · simp [List.dropWhile, h, ih]
    · have hf : w c = false := by
        cases hb : w c with
        | false => rfl
        | true => exact absurd hb h
      simp [List.dropWhile, hf]

theorem dropWhile_head_false (w : Char → Bool) (l : List Char) (c : Char) (cs : List Char)
    (h : l.dropWhile w = c :: cs) : w c = false := by
  have hh := List.head?_dropWhile_not w l
  rw [h] at hh
  simpa using hh

theorem dropWhile_reverse_dropWhile_head (w : Char → Bool) (m : List Char)
    (hm : ∀ c cs, m = c :: cs → w c = false) :
    ((m.reverse.dropWhile w).reverse).dropWhile w = (m.reverse.dropWhile w).reverse := by
  have hsuf : m.reverse.dropWhile w <:+ m.reverse := List.dropWhile_suffix w
  have hpre : (m.reverse.dropWhile w).reverse <+: m := by
    have hp := (List.reverse_prefix).mpr hsuf
    rwa [List.reverse_reverse] at hp
  obtain ⟨t, ht⟩ := hpre
  cases hnr : (m.reverse.dropWhile w).reverse with
  | nil => simp [hnr]
  | cons c cs =>
    rw [hnr] at ht
    have hc : w c = false := hm c (cs ++ t) (by rw [← ht]; simp)
    simp [List.dropWhile, hc]

theorem trimList_idem (w : Char → Bool) (l : List Char) :
    ((((((l.dropWhile w).reverse.dropWhile w).reverse).dropWhile w).reverse).dropWhile w).reverse
      = ((l.dropWhile w).reverse.dropWhile w).reverse := by
  have h1 : (((l.dropWhile w).reverse.dropWhile w).reverse).dropWhile w
      = ((l.dropWhile w).reverse.dropWhile w).reverse :=
    dropWhile_reverse_dropWhile_head w (l.dropWhile w)
      (fun c cs h => dropWhile_head_false w l c cs h)
  rw [h1, List.reverse_reverse, dropWhile_idem]

theorem jsTrim_idem (s : String) : jsTrim (jsTrim s) = jsTrim s :=
  congrArg String.mk (trimList_idem Char.isWhitespace s.data)

/-
Record-level facts about the groups of the index map.
-/

theorem buildIndexMap_mem_spec {l : List IndexEntry} {k : String} {r : IndexRecord}
    (hm : (k, r) ∈ buildIndexMap l) :
    l.filter (contribsB k) ≠ [] ∧ r = (l.filter (contribsB k)).foldl applyContrib ⟨[], []⟩ := by
  have hf := mapFind?_of_mem (nodup_mapKeys_buildIndexMap l) hm
  rw [buildIndexMap_find] at hf
  by_cases h : l.filter (contribsB k) = []
  · rw [if_pos h] at hf; cases hf
  · rw [if_neg h] at hf
    exact ⟨h, (Option.some.inj hf).symm⟩

theorem record_pages_spec {l : List IndexEntry} {k : String} {r : IndexRecord}
    (hm : (k, r) ∈ buildIndexMap l) :
    r.pageNumbers.Nodup
    ∧ (∀ q : String, q ∈ r.pageNumbers ↔ ∃ e ∈ l, contribsB k e = true ∧ q ∈ e.pageNumbers) := by
  obtain ⟨hne, hr⟩ := buildIndexMap_mem_spec hm
  constructor
  · rw [hr, applyContrib_foldl_pages]
    exact nodup_pagesFold _ _ (by simp)
  · intro q
    rw [hr, applyContrib_foldl_pages, mem_pagesFold]
    constructor
    · rintro (hq | ⟨e, he, hq⟩)
      · simp at hq
      · have := List.mem_filter.mp he
        exact ⟨e, this.1, this.2, hq⟩
    · rintro ⟨e, hel, hc, hq⟩
      exact Or.inr ⟨e, List.mem_filter.mpr ⟨hel, hc⟩, hq⟩

theorem record_variants_spec {l : List IndexEntry} {k : String} {r : IndexRecord}
    (hm : (k, r) ∈ buildIndexMap l) :
    r.termVariants ≠ []
    ∧ (vKeys r.termVariants).Nodup
    ∧ (∀ v ∈ vKeys r.termVariants, jsTrim v = v ∧ v ≠ "" ∧ jsToLower v = k
        ∧ ∃ e ∈ l, jsTrim e.term = v)
    ∧ (∀ v : String, vCount r.termVariants v
        = (l.filter (contribsB k)).countP (fun e => jsTrim e.term == v)) := by
  obtain ⟨hne, hr⟩ := buildIndexMap_mem_spec hm
  have hkeys : ∀ v, v ∈ vKeys r.termVariants ↔ ∃ e ∈ l.filter (contribsB k), jsTrim e.term = v := by
    intro v
    rw [hr, applyContrib_foldl_variants]
    rw [mem_vKeys_variantsFold]
    simp [vKeys]
  have hcontr : ∀ e ∈ l.filter (contribsB k), jsTrim e.term ≠ "" ∧ jsToLower (jsTrim e.term) = k := by
    intro e he
    have hc := (List.mem_filter.mp he).2
    unfold contribsB at hc
    have h1 : (jsTrim e.term == "") = false := by
      cases hb : (jsTrim e.term == "") with
      | false => rfl
      | true => rw [hb] at hc; simp at hc
    have h2 : (jsToLower (jsTrim e.term) == k) = true := by
      cases hb : (jsToLower (jsTrim e.term) == k) with
      | false => rw [hb] at hc; simp at hc
      | true => rfl
    exact ⟨by simpa using h1, eq_of_beq h2⟩
  refine ⟨?_, ?_, ?_, ?_⟩
  · cases hcs : l.filter (contribsB k) with
    | nil => exact absurd hcs hne
    | cons e es =>
      intro hv
      have hmem : jsTrim e.term ∈ vKeys r.termVariants := by
        rw [hkeys]
        exact ⟨e, by simp [hcs], rfl⟩
      rw [hv] at hmem
      simp [vKeys] at hmem
  · rw [hr, applyContrib_foldl_variants]
    exact nodup_vKeys_variantsFold _ _ (by simp [vKeys])
  · intro v hv
    obtain ⟨e, he, hev⟩ := (hkeys v).mp hv
    obtain ⟨hne', hlo⟩ := hcontr e he
    refine ⟨?_, ?_, ?_, ?_⟩
    · rw [← hev]; exact jsTrim_idem e.term
    · rw [← hev]; exact hne'
    · rw [← hev]; exact hlo
    · exact ⟨e, (List.mem_filter.mp he).1, hev⟩
  · intro v
    rw [hr, applyContrib_foldl_variants]
    rw [vCount_variantsFold]
    simp [vCount, List.find?]

theorem bestTerm_spec {l : List IndexEntry} {k : String} {r : IndexRecord}
    (hm : (k, r) ∈ buildIndexMap l) :
    bestTerm r ∈ vKeys r.termVariants
    ∧ (∀ p ∈ r.termVariants, p.2 ≤ vCount r.termVariants (bestTerm r))
    ∧ (∀ p ∈ r.termVariants, p.2 = vCount r.termVariants (bestTerm r) →
        firstCharKeepsCase p.1 = true → firstCharKeepsCase (bestTerm r) = true) := by
  obtain ⟨hne, hnd, _, _⟩ := record_variants_spec hm
  cases hvs : r.termVariants with
  | nil => exact absurd hvs hne
  | cons v rest =>
    have hinv := voteFold_spec v rest
    obtain ⟨⟨c, hcmem, hcv⟩, hle, htie⟩ := hinv
    have hbt : bestTerm r = ((v :: rest).foldl voteStep ("", -1)).1 := by
      rw [bestTerm, hvs]
    have hnd' : (vKeys (v :: rest)).Nodup := by rw [← hvs]; exact hnd
    have hkeymem : bestTerm r ∈ vKeys (v :: rest) := by
      rw [hbt]
      exact List.mem_map.mpr ⟨(_, c), hcmem, rfl⟩
    have hcount : c = vCount (v :: rest) (bestTerm r) := by
      have := (mem_variant_iff (v :: rest) hnd' (bestTerm r) c).mp (by rw [hbt]; exact hcmem)
      exact this.2
    refine ⟨hkeymem, ?_, ?_⟩
    · intro p hp
      have h1 := hle p hp
      rw [← hcv] at h1
      have h2 : p.2 ≤ c := by exact_mod_cast h1
      rw [← hcount]
      exact h2
    · intro p hp hpc hpf
      rw [← hcount] at hpc
      have h1 : (p.2 : Int) = ((v :: rest).foldl voteStep ("", -1)).2 := by
        rw [← hcv, hpc]
      rw [hbt]
      exact htie p hp h1 hpf

/-
Claim C8.
-/

theorem merged_entry_lower {l : List IndexEntry} {k : String} {r : IndexRecord}
    (hm : (k, r) ∈ buildIndexMap l) : jsToLower (mergeIndexEntry r).term = k := by
  obtain ⟨hbk, _, _⟩ := bestTerm_spec hm
  obtain ⟨_, _, hkey, _⟩ := record_variants_spec hm
  exact (hkey _ hbk).2.2.1

/-- C8: in the consolidated result no two index entries have terms that are
equal case-insensitively, and the index sequence is pairwise sorted
case-insensitively by display term (the locale-aware base-sensitivity
comparison being modelled as code-point comparison of lowercased terms). -/
theorem c8_index_invariants (results : List AnalysisResult) :
    (mergeAnalysisResults results).index.Pairwise
      (fun a b => jsToLower a.term ≠ jsToLower b.term)
    ∧ (mergeAnalysisResults results).index.Pairwise (fun a b => baseLe a b = true) := by
  constructor
  · have hnd := nodup_mapKeys_buildIndexMap ((results.map (fun r => r.index)).flatten)
    have hpw : (buildIndexMap ((results.map (fun r => r.index)).flatten)).Pairwise
        (fun kr kr' => kr.1 ≠ kr'.1) := by
      rw [mapKeys, List.Nodup, List.pairwise_map] at hnd
      exact hnd
    have hpre : ((buildIndexMap ((results.map (fun r => r.index)).flatten)).map
        (fun kr => mergeIndexEntry kr.2)).Pairwise
          (fun a b => jsToLower a.term ≠ jsToLower b.term) := by
      rw [List.pairwise_map]
      refine hpw.imp_of_mem ?_
      intro kr kr' hkr hkr' hne
      obtain ⟨k, r⟩ := kr
      obtain ⟨k', r'⟩ := kr'
      rw [merged_entry_lower hkr, merged_entry_lower hkr']
      exact hne
    exact ((jsSort_perm baseLe _).pairwise_iff (fun h => h.symm)).mpr hpre
  · exact jsSort_pairwise baseLe _ (fun a _ b _ => baseLe_total a b)
      (fun a _ b _ c _ => baseLe_trans a b c)

/-
Claim C2.
-/

theorem contribsB_iff (k : String) (e : IndexEntry) :
    contribsB k e = true ↔ jsTrim e.term ≠ "" ∧ jsToLower (jsTrim e.term) = k := by
  simp [contribsB]

theorem mapFind?_isSome_iff (m : List (String × IndexRecord)) (k : String) :
    (mapFind? m k).isSome ↔ k ∈ mapKeys m := by
  induction m with
  | nil => simp [mapFind?, List.find?, mapKeys]
  | cons kr rest ih =>
    by_cases h : kr.1 = k
    · simp [mapFind?, List.find?, h, mapKeys]
    · have hb : (kr.1 == k) = false := by simp [h]
      have hne : ¬ k = kr.1 := fun hc => h hc.symm
      have hstep : mapFind? (kr :: rest) k = mapFind? rest k := by
        simp [mapFind?, List.find?, hb]
      rw [hstep, ih]
      simp [mapKeys, hne]

/-- C2 counterexample: one batch with term "t" and page references
"+5", " 9", "!" produces the page list ["!", "+5", " 9"]; the pair
("!", " 9") does not both parse, and lexicographically " 9" precedes "!",
so the output is not sorted as the claim states. -/
theorem c2_index_pages_sorted_counterexample :
    ((mergeAnalysisResults [⟨[], [⟨"t", ["+5", " 9", "!"]⟩]⟩]).index.map
        (fun e => e.pageNumbers) = [["!", "+5", " 9"]])
    ∧ ¬ (∀ e ∈ (mergeAnalysisResults [⟨[], [⟨"t", ["+5", " 9", "!"]⟩]⟩]).index,
        e.pageNumbers.Pairwise (fun a b => pageLe a b = true)) := by
  constructor
  · decide
  · decide

/-- C2 amended: for every case-insensitive term present in the batches (with
non-empty trimmed form) the consolidated index has exactly one entry, whose
page-reference list is the duplicate-free union of all page references of
every trim-and-case variant of the term, and in which every adjacent pair
satisfies the comparator (ascending parseInt values when both parse, else
lexicographic).  Full pairwise sortedness fails in general because the
comparator is not transitive across mixed numeric and non-numeric
references. -/
theorem c2_index_pages_union_amended (results : List AnalysisResult) :
    (∀ t : String,
      (mergeAnalysisResults results).index.countP (fun e => jsToLower e.term == t)
        = (if ((results.map (fun r => r.index)).flatten).any (fun ie => contribsB t ie)
           then 1 else 0))
    ∧ (∀ e ∈ (mergeAnalysisResults results).index,
        e.pageNumbers.Nodup
        ∧ e.pageNumbers.Chain' (fun a b => pageLe a b = true)
        ∧ (∀ s : String, s ∈ e.pageNumbers ↔
            ∃ ie ∈ (results.map (fun r => r.index)).flatten,
              jsTrim ie.term ≠ "" ∧ jsToLower (jsTrim ie.term) = jsToLower e.term
              ∧ s ∈ ie.pageNumbers)) := by
  have hidx : (mergeAnalysisResults results).index
      = jsSort baseLe ((buildIndexMap ((results.map (fun r => r.index)).flatten)).map
          (fun kr => mergeIndexEntry kr.2)) := rfl
  have hnd := nodup_mapKeys_buildIndexMap ((results.map (fun r => r.index)).flatten)
  constructor
  · intro t
    rw [hidx]
    rw [(jsSort_perm baseLe _).countP_eq]
    rw [List.countP_map]
    have hcong : (buildIndexMap ((results.map (fun r => r.index)).flatten)).countP
        ((fun e => jsToLower e.term == t) ∘ (fun kr => mergeIndexEntry kr.2))
        = (buildIndexMap ((results.map (fun r => r.index)).flatten)).countP
            (fun kr => kr.1 == t) := by
      refine List.countP_congr ?_
      intro kr hkr
      obtain ⟨k, r⟩ := kr
      simp only [Function.comp]
      rw [merged_entry_lower hkr]
    rw [hcong]
    have hkeysc : (buildIndexMap ((results.map (fun r => r.index)).flatten)).countP
        (fun kr => kr.1 == t)
        = (mapKeys (buildIndexMap ((results.map (fun r => r.index)).flatten))).countP
            (fun k => k == t) := by
      rw [mapKeys, List.countP_map]
      rfl
    rw [hkeysc]
    by_cases hmem : t ∈ mapKeys (buildIndexMap ((results.map (fun r => r.index)).flatten))
    · have hsome := (mapFind?_isSome_iff _ t).mpr hmem
      rw [buildIndexMap_find] at hsome
      have hfil : ¬ ((results.map (fun r => r.index)).flatten).filter (contribsB t) = [] := by
        intro hc
        rw [if_pos hc] at hsome
        simp at hsome
      have hany : ((results.map (fun r => r.index)).flatten).any (fun ie => contribsB t ie)
          = true := by
        cases hf : ((results.map (fun r => r.index)).flatten).filter (contribsB t) with
        | nil => exact absurd hf hfil
        | cons a as =>
          have ham : a ∈ ((results.map (fun r => r.index)).flatten).filter (contribsB t) := by
            rw [hf]; simp
          have hsp := List.mem_filter.mp ham
          exact List.any_eq_true.mpr ⟨a, hsp.1, hsp.2⟩
      rw [if_pos hany]
      have hcount : (mapKeys (buildIndexMap ((results.map (fun r => r.index)).flatten))).count t
          = 1 := List.count_eq_one_of_mem hnd hmem
      rw [← hcount, List.count]
    · have hnone : ¬ (mapFind? (buildIndexMap ((results.map (fun r => r.index)).flatten)) t).isSome := by
        rw [mapFind?_isSome_iff]
        exact hmem
      rw [buildIndexMap_find] at hnone
      have hfil : ((results.map (fun r => r.index)).flatten).filter (contribsB t) = [] := by
        by_contra hc
        rw [if_neg hc] at hnone
        simp at hnone
      have hany : ((results.map (fun r => r.index)).flatten).any (fun ie => contribsB t ie)
          = false := by
        rw [List.filter_eq_nil_iff] at hfil
        rw [← Bool.not_eq_true, List.any_eq_true]
        rintro ⟨a, ha, hc⟩
        exact hfil a ha hc
      rw [hany]
      simp only [if_false, Bool.false_eq_true]
      have hcz : (mapKeys (buildIndexMap ((results.map (fun r => r.index)).flatten))).count t
          = 0 := by
        rw [List.count_eq_zero]
        exact hmem
      rw [← hcz, List.count]
  · intro e he
    rw [hidx] at he
    have hpre := (mem_jsSort baseLe _ e).mp he
    obtain ⟨kr, hkr, hkre⟩ := List.mem_map.mp hpre
    obtain ⟨k, r⟩ := kr
    obtain ⟨hpnodup, hpmem⟩ := record_pages_spec hkr
    have hpages : e.pageNumbers = jsSort pageLe r.pageNumbers := by
      rw [← hkre]
      rfl
    have hlow : jsToLower e.term = k := by rw [← hkre]; exact merged_entry_lower hkr
    refine ⟨?_, ?_, ?_⟩
    · rw [hpages]
      exact ((jsSort_perm pageLe r.pageNumbers).nodup_iff).mpr hpnodup
    · rw [hpages]
      exact jsSort_chain pageLe _ (fun a _ b _ => pageLe_total a b)
    · intro s
      rw [hpages, mem_jsSort, hpmem s, hlow]
      constructor
      · rintro ⟨ie, hie, hc, hs⟩
        have := (contribsB_iff k ie).mp hc
        exact ⟨ie, hie, this.1, this.2, hs⟩
      · rintro ⟨ie, hie, h1, h2, hs⟩
        exact ⟨ie, hie, (contribsB_iff k ie).mpr ⟨h1, h2⟩, hs⟩

theorem c2_index_pages_union_amended_witness :
    ((mergeAnalysisResults [⟨[], [⟨"DNA", ["2", "1"]⟩]⟩]).index.countP
        (fun e => jsToLower e.term == "dna")
      = (if (([⟨[], [⟨"DNA", ["2", "1"]⟩]⟩].map
            (fun (r : AnalysisResult) => r.index)).flatten).any (fun ie => contribsB "dna" ie)
         then 1 else 0))
    ∧ ((⟨"DNA", ["1", "2"]⟩ : IndexEntry).pageNumbers.Nodup
        ∧ (⟨"DNA", ["1", "2"]⟩ : IndexEntry).pageNumbers.Chain' (fun a b => pageLe a b = true)
        ∧ (∀ s : String, s ∈ (⟨"DNA", ["1", "2"]⟩ : IndexEntry).pageNumbers ↔
            ∃ ie ∈ ([⟨[], [⟨"DNA", ["2", "1"]⟩]⟩].map
                (fun (r : AnalysisResult) => r.index)).flatten,
              jsTrim ie.term ≠ ""
              ∧ jsToLower (jsTrim ie.term) = jsToLower (⟨"DNA", ["1", "2"]⟩ : IndexEntry).term
              ∧ s ∈ ie.pageNumbers)) :=
  ⟨(c2_index_pages_union_amended [⟨[], [⟨"DNA", ["2", "1"]⟩]⟩]).1 "dna",
   (c2_index_pages_union_amended [⟨[], [⟨"DNA", ["2", "1"]⟩]⟩]).2 ⟨"DNA", ["1", "2"]⟩ (by decide)⟩

/-
Claim C3.
-/

/-- Number of index entries across all batches whose trimmed term is exactly
the variant v. -/
def termCount (results : List AnalysisResult) (v : String) : Nat :=
  ((results.map (fun r => r.index)).flatten).countP (fun ie => jsTrim ie.term == v)

/-- First character is an uppercase letter. -/
def firstCharIsUpper (v : String) : Bool :=
  match v.data with
  | [] => false
  | c :: _ => c.isUpper

theorem jsToLower_ne_empty {v : String} (h : v ≠ "") : jsToLower v ≠ "" := by
  intro hc
  apply h
  have hdata : v.data.map Char.toLower = [] := by
    have := congrArg String.data hc
    simpa [jsToLower] using this
  have : v.data = [] := by simpa using hdata
  exact String.ext (by simpa using this)

theorem termCount_eq_vCount {results : List AnalysisResult} {k : String} {r : IndexRecord}
    (hm : (k, r) ∈ buildIndexMap ((results.map (fun r => r.index)).flatten))
    {v : String} (hv : v ≠ "") (hvl : jsToLower v = k) :
    termCount results v = vCount r.termVariants v := by
  obtain ⟨_, _, _, hcount⟩ := record_variants_spec hm
  rw [hcount v, termCount, List.countP_filter]
  refine List.countP_congr ?_
  intro ie _
  constructor
  · intro hie
    have hb : (jsTrim ie.term == v) = true := hie
    have hev : jsTrim ie.term = v := eq_of_beq hb
    have hc : contribsB k ie = true := by
      rw [contribsB_iff]
      rw [hev]
      exact ⟨hv, hvl⟩
    simp [hb, hc]
  · intro hie
    simp only [Bool.and_eq_true] at hie
    exact hie.1

theorem heads_toLower_eq {v u : String} (hv : v ≠ "") (hu : u ≠ "")
    (h : jsToLower v = jsToLower u) :
    ∃ c d vs us, v.data = c :: vs ∧ u.data = d :: us ∧ Char.toLower c = Char.toLower d := by
  have hdata : v.data.map Char.toLower = u.data.map Char.toLower := by
    have := congrArg String.data h
    simpa [jsToLower] using this
  cases hvd : v.data with
  | nil => exact absurd (String.ext (by simpa using hvd)) hv
  | cons c vs =>
    cases hud : u.data with
    | nil => exact absurd (String.ext (by simpa using hud)) hu
    | cons d us =>
      rw [hvd, hud] at hdata
      simp only [List.map_cons, List.cons.injEq] at hdata
      exact ⟨c, d, vs, us, rfl, rfl, hdata.1⟩

theorem firstCharKeepsCase_cons {v : String} {c : Char} {cs : List Char} (h : v.data = c :: cs) :
    firstCharKeepsCase v = decide (c.toUpper = c) := by
  unfold firstCharKeepsCase
  rw [h]

theorem firstCharIsUpper_cons {v : String} {c : Char} {cs : List Char} (h : v.data = c :: cs) :
    firstCharIsUpper v = c.isUpper := by
  unfold firstCharIsUpper
  rw [h]

/-- C3: the display form of each consolidated index entry is a variant that
occurs in the input, no trim-and-case variant of the same group occurs more
often, and when a variant that ties the maximum frequency starts with an
uppercase letter the chosen display form also starts with one; in
particular the group with frequencies dna:3, DNA:5 displays as "DNA". -/
theorem c3_display_form_majority_vote :
    (∀ results : List AnalysisResult, ∀ e ∈ (mergeAnalysisResults results).index,
      1 ≤ termCount results e.term
      ∧ (∀ v : String, jsToLower v = jsToLower e.term →
          termCount results v ≤ termCount results e.term)
      ∧ (∀ v : String, jsToLower v = jsToLower e.term →
          termCount results v = termCount results e.term →
          firstCharIsUpper v = true → firstCharIsUpper e.term = true))
    ∧ (mergeAnalysisResults [⟨[], [⟨"dna", ["1"]⟩, ⟨"dna", ["2"]⟩, ⟨"dna", ["3"]⟩,
        ⟨"DNA", ["4"]⟩, ⟨"DNA", ["5"]⟩, ⟨"DNA", ["6"]⟩, ⟨"DNA", ["7"]⟩,
        ⟨"DNA", ["8"]⟩]⟩]).index.map (fun e => e.term) = ["DNA"] := by
  constructor
  · intro results e he
    have hidx : (mergeAnalysisResults results).index
        = jsSort baseLe ((buildIndexMap ((results.map (fun r => r.index)).flatten)).map
            (fun kr => mergeIndexEntry kr.2)) := rfl
    rw [hidx] at he
    have hpre := (mem_jsSort baseLe _ e).mp he
    obtain ⟨kr, hkr, hkre⟩ := List.mem_map.mp hpre
    obtain ⟨k, r⟩ := kr
    have hterm : e.term = bestTerm r := by rw [← hkre]; rfl
    obtain ⟨hbk, hdom, htie⟩ := bestTerm_spec hkr
    obtain ⟨hvne, hvnd, hkeyfacts, hcount⟩ := record_variants_spec hkr
    have hbfacts := hkeyfacts _ hbk
    have hbne : bestTerm r ≠ "" := hbfacts.2.1
    have hblow : jsToLower (bestTerm r) = k := hbfacts.2.2.1
    have hbcount : termCount results (bestTerm r) = vCount r.termVariants (bestTerm r) :=
      termCount_eq_vCount hkr hbne hblow
    have hbmem : (bestTerm r, vCount r.termVariants (bestTerm r)) ∈ r.termVariants :=
      (mem_variant_iff _ hvnd _ _).mpr ⟨hbk, rfl⟩
    have hbpos : 1 ≤ vCount r.termVariants (bestTerm r) := by
      rw [hcount]
      have hfe : ∃ x ∈ ((results.map (fun r => r.index)).flatten).filter (contribsB k),
          (fun ie => jsTrim ie.term == bestTerm r) x = true := by
        obtain ⟨eb2, heb2, heb2t⟩ := hbfacts.2.2.2
        refine ⟨eb2, ?_, by simp [heb2t]⟩
        refine List.mem_filter.mpr ⟨heb2, ?_⟩
        rw [contribsB_iff, heb2t]
        exact ⟨hbne, hblow⟩
      exact List.countP_pos_iff.mpr hfe
    -- helper: a variant string of the group that occurs in the input
    have hvbridge : ∀ v : String, jsToLower v = k → 1 ≤ termCount results v →
        v ∈ vKeys r.termVariants ∧ termCount results v = vCount r.termVariants v := by
      intro v hlv hpos
      have hvne2 : v ≠ "" := by
        intro hc
        subst hc
        exact jsToLower_ne_empty hbne (by rw [hblow, ← hlv]; rfl)
      have hpos2 : 0 < List.countP (fun ie => jsTrim ie.term == v)
          ((results.map (fun r => r.index)).flatten) := by
        unfold termCount at hpos
        omega
      obtain ⟨ie, hie, hiet⟩ := List.countP_pos_iff.mp hpos2
      have hiev : jsTrim ie.term = v := eq_of_beq hiet
      have hkmem : v ∈ vKeys r.termVariants := by
        obtain ⟨hne2, hr⟩ := buildIndexMap_mem_spec hkr
        rw [hr, applyContrib_foldl_variants, mem_vKeys_variantsFold]
        refine Or.inr ⟨ie, ?_, hiev⟩
        refine List.mem_filter.mpr ⟨hie, ?_⟩
        rw [contribsB_iff, hiev]
        exact ⟨hvne2, hlv⟩
      exact ⟨hkmem, termCount_eq_vCount hkr hvne2 hlv⟩
    rw [hterm]
    refine ⟨?_, ?_, ?_⟩
    · rw [hbcount]; exact hbpos
    · intro v hlv
      rw [hblow] at hlv
      by_cases hpos : 1 ≤ termCount results v
      · obtain ⟨hkmem, heq⟩ := hvbridge v hlv hpos
        have hmem2 : (v, vCount r.termVariants v) ∈ r.termVariants :=
          (mem_variant_iff _ hvnd _ _).mpr ⟨hkmem, rfl⟩
        have := hdom _ hmem2
        rw [heq, hbcount]
        exact this
      · omega
    · intro v hlv hceq hupper
      rw [hblow] at hlv
      have hpos : 1 ≤ termCount results v := by
        rw [hceq, hbcount]
        exact hbpos
      obtain ⟨hkmem, heq⟩ := hvbridge v hlv hpos
      have hmem2 : (v, vCount r.termVariants v) ∈ r.termVariants :=
        (mem_variant_iff _ hvnd _ _).mpr ⟨hkmem, rfl⟩
      have hvfacts := hkeyfacts _ hkmem
      have hvne3 : v ≠ "" := hvfacts.2.1
      -- first characters
      obtain ⟨c, d, vs, us, hvd, hbd, hcd⟩ := heads_toLower_eq hvne3 hbne
        (by rw [hvfacts.2.2.1, hblow])
      have hcu : c.isUpper = true := by
        rw [firstCharIsUpper_cons hvd] at hupper
        exact hupper
      have hkeep : firstCharKeepsCase v = true := by
        rw [firstCharKeepsCase_cons hvd]
        simp [toUpper_of_isUpper hcu]
      have hkeepb : firstCharKeepsCase (bestTerm r) = true := by
        refine htie (v, vCount r.termVariants v) hmem2 ?_ hkeep
        rw [← heq, hceq, hbcount]
      have hdkeep : d.toUpper = d := by
        rw [firstCharKeepsCase_cons hbd] at hkeepb
        simpa using hkeepb
      have hdu : d.isUpper = true := upper_of_toLower_eq hcd.symm hcu hdkeep
      rw [firstCharIsUpper_cons hbd]
      exact hdu
  · decide

theorem c3_display_form_majority_vote_witness :
    1 ≤ termCount [⟨[], [⟨"dna", ["1"]⟩, ⟨"DNA", ["2"]⟩, ⟨"DNA", ["3"]⟩]⟩]
        (⟨"DNA", ["1", "2", "3"]⟩ : IndexEntry).term
    ∧ (∀ v : String, jsToLower v = jsToLower (⟨"DNA", ["1", "2", "3"]⟩ : IndexEntry).term →
        termCount [⟨[], [⟨"dna", ["1"]⟩, ⟨"DNA", ["2"]⟩, ⟨"DNA", ["3"]⟩]⟩] v
          ≤ termCount [⟨[], [⟨"dna", ["1"]⟩, ⟨"DNA", ["2"]⟩, ⟨"DNA", ["3"]⟩]⟩]
              (⟨"DNA", ["1", "2", "3"]⟩ : IndexEntry).term)
    ∧ (∀ v : String, jsToLower v = jsToLower (⟨"DNA", ["1", "2", "3"]⟩ : IndexEntry).term →
        termCount [⟨[], [⟨"dna", ["1"]⟩, ⟨"DNA", ["2"]⟩, ⟨"DNA", ["3"]⟩]⟩] v
          = termCount [⟨[], [⟨"dna", ["1"]⟩, ⟨"DNA", ["2"]⟩, ⟨"DNA", ["3"]⟩]⟩]
              (⟨"DNA", ["1", "2", "3"]⟩ : IndexEntry).term →
        firstCharIsUpper v = true →
        firstCharIsUpper (⟨"DNA", ["1", "2", "3"]⟩ : IndexEntry).term = true) :=
  c3_display_form_majority_vote.1 [⟨[], [⟨"dna", ["1"]⟩, ⟨"DNA", ["2"]⟩, ⟨"DNA", ["3"]⟩]⟩]
    ⟨"DNA", ["1", "2", "3"]⟩ (by decide)

/-
Claim C10.
-/

theorem indexFold_skip_empty (l : List IndexEntry) : ∀ m : List (String × IndexRecord),
    (l.filter (fun ie => !(jsTrim ie.term == ""))).foldl insertIndexEntry m
      = l.foldl insertIndexEntry m := by
  induction l with
  | nil => intro m; rfl
  | cons e es ih =>
    intro m
    by_cases ht : jsTrim e.term = ""
    · have hp : (fun ie => !(jsTrim ie.term == "")) e = false := by simp [ht]
      have hins : insertIndexEntry m e = m := by simp [insertIndexEntry, ht]
      simp only [List.filter, hp, List.foldl_cons, hins]
      exact ih m
    · have hp : (fun ie => !(jsTrim ie.term == "")) e = true := by simp [ht]
      simp only [List.filter, hp, List.foldl_cons]
      exact ih (insertIndexEntry m e)

theorem flatten_map_filter (results : List AnalysisResult) (p : IndexEntry → Bool) :
    ((results.map (fun r => r.index.filter p)).flatten)
      = ((results.map (fun r => r.index)).flatten).filter p := by
  induction results with
  | nil => rfl
  | cons r rest ih => simp [ih, List.filter_append]

/-- C10: consolidation is total: the empty input yields the empty dataset,
and index entries whose term trims to the empty string are dropped
silently, so removing them from the input leaves the output unchanged.
Totality (no exception) is by construction: mergeAnalysisResults is a total
Lean function of its input. -/
theorem c10_consolidation_total :
    mergeAnalysisResults [] = ⟨[], []⟩
    ∧ ∀ results : List AnalysisResult,
        mergeAnalysisResults (results.map (fun r =>
          ⟨r.toc, r.index.filter (fun ie => !(jsTrim ie.term == ""))⟩))
        = mergeAnalysisResults results := by
  constructor
  · rfl
  · intro results
    have htoc : (((results.map (fun r =>
          (⟨r.toc, r.index.filter (fun ie => !(jsTrim ie.term == ""))⟩ : AnalysisResult))).map
            (fun r => r.toc)).flatten)
        = ((results.map (fun r => r.toc)).flatten) := by
      induction results with
      | nil => rfl
      | cons r rest ih =>
        simp only [List.map_cons, List.flatten_cons]
        rw [ih]
    have hindex : buildIndexMap (((results.map (fun r =>
          (⟨r.toc, r.index.filter (fun ie => !(jsTrim ie.term == ""))⟩ : AnalysisResult))).map
            (fun r => r.index)).flatten)
        = buildIndexMap ((results.map (fun r => r.index)).flatten) := by
      have hmap : ((results.map (fun r =>
            (⟨r.toc, r.index.filter (fun ie => !(jsTrim ie.term == ""))⟩ : AnalysisResult))).map
              (fun r => r.index))
          = results.map (fun r => r.index.filter (fun ie => !(jsTrim ie.term == ""))) := by
        clear htoc
        induction results with
        | nil => rfl
        | cons r rest ih =>
          simp only [List.map_cons]
          rw [ih]
      rw [hmap, flatten_map_filter]
      unfold buildIndexMap
      exact indexFold_skip_empty _ []
    unfold mergeAnalysisResults
    rw [htoc, hindex]

/-
Claim C5.
-/

theorem char_isDigit_iff (c : Char) : c.isDigit = true ↔ 48 ≤ c.toNat ∧ c.toNat ≤ 57 := by
  simp [Char.isDigit]
  exact Iff.rfl

theorem digit_not_whitespace {c : Char} (h : c.isDigit = true) : c.isWhitespace = false := by
  cases hb : c.isWhitespace with
  | false => rfl
  | true =>
    have hw : ((c = ' ' ∨ c = '\t') ∨ c = '\x0d') ∨ c = '\n' := by
      simpa [Char.isWhitespace] using hb
    rcases hw with ((rfl | rfl) | rfl) | rfl <;> exact absurd h (by decide)

theorem takeWhile_all {p : Char → Bool} : ∀ {l : List Char}, (∀ c ∈ l, p c = true) →
    l.takeWhile p = l := by
  intro l
  induction l with
  | nil => intro _; rfl
  | cons c cs ih =>
    intro h
    simp [List.takeWhile, h c (by simp)]
    first
      | exact ih (fun d hd => h d (by simp [hd]))
      | exact fun d hd => h d (by simp [hd])

theorem jsParseInt_all_digits {ds : List Char} (h : ∀ c ∈ ds, c.isDigit = true) :
    jsParseInt ⟨ds⟩ = if ds.isEmpty then none else some ((digitsVal ds : Int)) := by
  cases ds with
  | nil => rfl
  | cons c cs =>
    have hcd := h c (by simp)
    have hw : c.isWhitespace = false := digit_not_whitespace hcd
    have hne1 : c ≠ '-' := by intro hc; subst hc; exact absurd hcd (by decide)
    have hne2 : c ≠ '+' := by intro hc; subst hc; exact absurd hcd (by decide)
    have hdrop : (String.mk (c :: cs)).data.dropWhile Char.isWhitespace = c :: cs := by
      simp [List.dropWhile, hw]
    unfold jsParseInt
    rw [hdrop]
    simp only [if_neg hne1, if_neg hne2]
    rw [takeWhile_all h]
    simp

/-- Resolver as claim C5 words it: extract the leading (first) integer of
the reference, default to bodyStartPage when there is none, else clamp
bodyStartPage + (n - 1) into [bodyStartPage, bodyStartPage + bodyPageCount - 1]. -/
def resolveClaimC5 (bodyStartPage bodyPageCount : Int) (ref : String) : Int :=
  match getPageNum ref with
  | none => bodyStartPage
  | some n =>
    max bodyStartPage (min (bodyStartPage + (n : Int) - 1) (bodyStartPage + bodyPageCount - 1))

/-- The integer formed by the concatenation of every digit character of the
reference, the extraction rule the code actually implements. -/
def concatDigitsVal (ref : String) : Option Nat :=
  if (ref.data.filter Char.isDigit).isEmpty then none
  else some (digitsVal (ref.data.filter Char.isDigit))

/-- Resolver as amended: concatenated-digits extraction, bodyStartPage
default, clamping unchanged. -/
def resolveSpecC5 (bodyStartPage bodyPageCount : Int) (ref : String) : Int :=
  match concatDigitsVal ref with
  | none => bodyStartPage
  | some n =>
    max bodyStartPage (min (bodyStartPage + (n : Int) - 1) (bodyStartPage + bodyPageCount - 1))

/-- C5 counterexample: the reference "1a2" has leading integer 1, so with
bodyStartPage = 3 and bodyPageCount = 100 the claim predicts index 3, but
the code strips non-digits first ("12") and returns 14. -/
theorem c5_resolver_counterexample :
    resolveTargetPage 3 102 "1a2" = 14
    ∧ resolveClaimC5 3 100 "1a2" = 3
    ∧ (14 : Int) ≠ 3 := by
  refine ⟨by decide, by decide, by decide⟩

/-- C5 amended: the resolver extracts the integer formed by concatenating
every digit character of the reference; with no digit it returns
bodyStartPage, else bodyStartPage + (n - 1) clamped to
[bodyStartPage, bodyStartPage + bodyPageCount - 1]; "Page 5" with
bodyStartPage 3 and bodyPageCount 100 resolves to 7; the resolver is a
total function. -/
theorem c5_resolver_amended :
    (∀ (bodyStartPage bodyPageCount : Int) (ref : String), 1 ≤ bodyPageCount →
      resolveTargetPage bodyStartPage (bodyStartPage + bodyPageCount - 1) ref
        = resolveSpecC5 bodyStartPage bodyPageCount ref)
    ∧ resolveTargetPage 3 102 "Page 5" = 7 := by
  constructor
  · intro s n ref hn
    unfold resolveTargetPage resolveSpecC5 concatDigitsVal
    have hdig : ∀ c ∈ ref.data.filter Char.isDigit, c.isDigit = true := by
      intro c hc; exact (List.mem_filter.mp hc).2
    rw [jsParseInt_all_digits hdig]
    by_cases he : (ref.data.filter Char.isDigit).isEmpty
    · rw [if_pos he, if_pos he]
    · rw [if_neg he, if_neg he]
      dsimp only
      rw [Int.max_def, Int.min_def]
      split_ifs <;> omega
  · decide

theorem c5_resolver_amended_witness :
    resolveTargetPage 3 102 "12-14" = resolveSpecC5 3 100 "12-14" ∧ (1 : Int) ≤ 100 :=
  ⟨c5_resolver_amended.1 3 100 "12-14" (by decide), by decide⟩

/-
Claim C6.
-/

theorem foldl_inv {σ β : Type _} {P : σ → Prop} {f : σ → β → σ} :
    ∀ (l : List β) (s : σ), (∀ s b, b ∈ l → P s → P (f s b)) → P s → P (l.foldl f s) := by
  intro l
  induction l with
  | nil => intro s _ hs; exact hs
  | cons b bs ih =>
    intro s h hs
    exact ih (f s b) (fun s' b' hb' hs' => h s' b' (by simp [hb']) hs') (h s b (by simp) hs)

theorem tocPageBreak_draws (n : Nat) (st : FillState) :
    (tocPageBreak n st).draws = st.draws := by
  unfold tocPageBreak
  dsimp only
  split_ifs <;> rfl

theorem tocDotsDraw_draws (wf : Bool → String → Nat → Nat) (isBold : Bool) (entrySize : Nat)
    (indent : Int) (line : String) (st : FillState) :
    ∀ d ∈ (tocDotsDraw wf isBold entrySize indent line st).draws,
      d ∈ st.draws ∨ ∃ pg s, d = TocDraw.text pg s := by
  unfold tocDotsDraw
  dsimp only
  split_ifs
  · intro d hd
    simp at hd
    rcases hd with hd | hd
    · exact Or.inl hd
    · exact Or.inr ⟨_, _, hd⟩
  · intro d hd
    exact Or.inl hd

theorem tocLineStep_draws (wf : Bool → String → Nat → Nat) (tocPageCount : Nat) (isBold : Bool)
    (entrySize : Nat) (indent : Int) (displayPageStr : String) (target : Option Int)
    (linesLen : Nat) (st : FillState) (il : Nat × String) :
    ∀ d ∈ (tocLineStep wf tocPageCount isBold entrySize indent displayPageStr target
        linesLen st il).draws,
      d ∈ st.draws ∨ (∃ pg s, d = TocDraw.text pg s)
      ∨ ∃ pg, d = TocDraw.pageNum pg displayPageStr target := by
  unfold tocLineStep
  intro d hd
  simp only at hd
  by_cases hlast : il.1 = linesLen - 1
  · rw [if_pos hlast] at hd
    simp only [List.mem_append] at hd
    rcases hd with hd | hd
    · have hdots := tocDotsDraw_draws wf isBold entrySize indent il.2 _ d hd
      rcases hdots with hd2 | hd2
      · simp only [tocPageBreak_draws, List.mem_append] at hd2
        rcases hd2 with hd3 | hd3
        · exact Or.inl hd3
        · simp at hd3
          exact Or.inr (Or.inl ⟨_, _, hd3⟩)
      · exact Or.inr (Or.inl hd2)
    · simp at hd
      exact Or.inr (Or.inr ⟨_, hd⟩)
  · rw [if_neg hlast] at hd
    simp only [tocPageBreak_draws, List.mem_append] at hd
    rcases hd with hd | hd
    · exact Or.inl hd
    · simp at hd
      exact Or.inr (Or.inl ⟨_, _, hd⟩)

theorem tocEntryStep_draws (wf : Bool → String → Nat → Nat) (tocPageCount : Nat)
    (pageOffset : Int) (contentStart contentEnd : Int) (totalPages : Nat) (st : FillState)
    (entry : TocEntry) :
    ∀ d ∈ (tocEntryStep wf tocPageCount pageOffset contentStart contentEnd totalPages
        st entry).draws,
      d ∈ st.draws ∨ (∃ pg s, d = TocDraw.text pg s)
      ∨ ∃ pg, d = TocDraw.pageNum pg (displayPageString pageOffset entry.pageNumber)
          (linkTarget totalPages (resolveTargetPage contentStart contentEnd entry.pageNumber)) := by
  unfold tocEntryStep
  simp only
  refine foldl_inv (P := fun st' => ∀ d ∈ st'.draws,
      d ∈ st.draws ∨ (∃ pg s, d = TocDraw.text pg s)
      ∨ ∃ pg, d = TocDraw.pageNum pg (displayPageString pageOffset entry.pageNumber)
          (linkTarget totalPages (resolveTargetPage contentStart contentEnd entry.pageNumber)))
    _ st ?_ (fun d hd => Or.inl hd)
  intro s' il _ hs' d hd
  have := tocLineStep_draws wf tocPageCount _ _ _ _ _ _ s' il d hd
  rcases this with hd2 | hd2 | hd2
  · exact hs' d hd2
  · exact Or.inr (Or.inl hd2)
  · exact Or.inr (Or.inr hd2)

/-- C6 counterexample: in printed mode the code displays the canonical
decimal form of the parsed reference, so the ToC entry with page reference
"05" is rendered as "5", not passed through unchanged. -/
theorem c6_display_offset_counterexample :
    ((fillTocDraws (fun _ _ _ => 100000) 1 (jsPageOffset true 1) 1 100 101
        [⟨"Intro", 1, "05"⟩]).filterMap
      (fun d => match d with
        | TocDraw.pageNum _ disp tgt => some (disp, tgt)
        | _ => none) = [("5", some 5)])
    ∧ "5" ≠ "05" := by
  refine ⟨by decide, by decide⟩

/-- C6 amended: every page number rendered in the ToC and in the index
section displays its entry's reference shifted by the page offset (the ToC
page count in sequential mode, zero in printed mode) in canonical decimal
when the reference parses, and unchanged otherwise; in printed mode a
parsing reference is therefore displayed as the canonical decimal of its
parsed value rather than verbatim.  Every link target is resolved from the
original pre-offset reference. -/
theorem c6_display_offset_amended :
    (∀ (wf : Bool → String → Nat → Nat) (usePrintedPageNumbers : Bool) (tocPageCount : Nat)
        (contentStart contentEnd : Int) (totalPages : Nat) (toc : List TocEntry)
        (pg : Nat) (disp : String) (tgt : Option Int),
      TocDraw.pageNum pg disp tgt ∈ fillTocDraws wf tocPageCount
          (jsPageOffset usePrintedPageNumbers tocPageCount) contentStart contentEnd
          totalPages toc →
      ∃ entry ∈ toc,
        disp = displayPageString (jsPageOffset usePrintedPageNumbers tocPageCount)
            entry.pageNumber
        ∧ tgt = linkTarget totalPages (resolveTargetPage contentStart contentEnd
            entry.pageNumber))
    ∧ (∀ (usePrintedPageNumbers : Bool) (tocPageCount : Nat) (contentStart contentEnd : Int)
        (totalPages : Nat) (index : List IndexEntry) (orig disp : String) (tgt : Option Int),
      (orig, disp, tgt) ∈ indexRenderedRefs (jsPageOffset usePrintedPageNumbers tocPageCount)
          contentStart contentEnd totalPages index →
      (∃ item ∈ index, orig ∈ item.pageNumbers)
      ∧ disp = displayPageString (jsPageOffset usePrintedPageNumbers tocPageCount) orig
      ∧ tgt = linkTarget totalPages (resolveTargetPage contentStart contentEnd orig))
    ∧ (∀ (tocPageCount : Nat) (ref : String) (p : Int), jsParseInt ref = some p →
        displayPageString (jsPageOffset false tocPageCount) ref
          = toString (p + (tocPageCount : Int)))
    ∧ (∀ (tocPageCount : Nat) (ref : String) (p : Int), jsParseInt ref = some p →
        displayPageString (jsPageOffset true tocPageCount) ref = toString p)
    ∧ (∀ (usePrintedPageNumbers : Bool) (tocPageCount : Nat) (ref : String),
        jsParseInt ref = none →
        displayPageString (jsPageOffset usePrintedPageNumbers tocPageCount) ref = ref) := by
  refine ⟨?_, ?_, ?_, ?_, ?_⟩
  · intro wf mode n s e tot toc pg disp tgt hmem
    unfold fillTocDraws at hmem
    have hinv := foldl_inv (f := tocEntryStep wf n (jsPageOffset mode n) s e tot)
      (P := fun st : FillState => ∀ pg2 disp2 tgt2,
        TocDraw.pageNum pg2 disp2 tgt2 ∈ st.draws →
        ∃ entry ∈ toc, disp2 = displayPageString (jsPageOffset mode n) entry.pageNumber
          ∧ tgt2 = linkTarget tot (resolveTargetPage s e entry.pageNumber))
      toc
      ({ curPage := 0, tocPageIndex := 0, cursorY := pageHeightC - marginC - 5000
       , draws := [TocDraw.text 0 "Table of Contents"] } : FillState)
      ?_ ?_
    · exact hinv pg disp tgt hmem
    · intro st entry hentry hst pg2 disp2 tgt2 hmem2
      have := tocEntryStep_draws wf n (jsPageOffset mode n) s e tot st entry _ hmem2
      rcases this with hd | ⟨_, _, hd⟩ | ⟨_, hd⟩
      · exact hst pg2 disp2 tgt2 hd
      · cases hd
      · cases hd
        exact ⟨entry, hentry, rfl, rfl⟩
    · intro pg2 disp2 tgt2 hmem2
      simp at hmem2
  · intro mode n s e tot index orig disp tgt hmem
    unfold indexRenderedRefs at hmem
    rw [List.mem_flatten] at hmem
    obtain ⟨sub, hsub, hmem2⟩ := hmem
    rw [List.mem_map] at hsub
    obtain ⟨item, hitem, hsubeq⟩ := hsub
    rw [← hsubeq] at hmem2
    rw [List.mem_map] at hmem2
    obtain ⟨p, hp, hpeq⟩ := hmem2
    have h1 : orig = p := congrArg (fun t => t.1) hpeq.symm
    subst h1
    refine ⟨⟨item, hitem, hp⟩, ?_, ?_⟩
    · have := congrArg (fun t => t.2.1) hpeq.symm
      simpa using this
    · have := congrArg (fun t => t.2.2) hpeq.symm
      simpa using this
  · intro n ref p hp
    unfold displayPageString
    rw [hp]
    simp [jsPageOffset]
  · intro n ref p hp
    unfold displayPageString
    rw [hp]
    simp [jsPageOffset]
  · intro mode n ref hp
    unfold displayPageString
    rw [hp]

theorem c6_display_offset_amended_witness :
    (∃ entry ∈ [(⟨"Intro", 1, "2"⟩ : TocEntry)],
      "5" = displayPageString (jsPageOffset false 3) entry.pageNumber
      ∧ some 4 = linkTarget 110 (resolveTargetPage 3 102 entry.pageNumber))
    ∧ displayPageString (jsPageOffset false 3) "2" = toString ((2 : Int) + (3 : Int)) :=
  ⟨c6_display_offset_amended.1 (fun _ _ _ => 0) false 3 3 102 110 [⟨"Intro", 1, "2"⟩]
      0 "5" (some 4) (by decide),
   c6_display_offset_amended.2.2.1 3 "2" 2 (by decide)⟩

/-
Claim C9.
-/

/-- Bound invariant of the fill loop: the current page and every draw so
far target an allocated placeholder page. -/
def DrawsBound (n : Nat) (st : FillState) : Prop :=
  st.curPage < n ∧ ∀ d ∈ st.draws, drawPage d < n

theorem tocPageBreak_bound {n : Nat} {st : FillState} (h : DrawsBound n st) :
    DrawsBound n (tocPageBreak n st) := by
  obtain ⟨h1, h2⟩ := h
  unfold tocPageBreak
  dsimp only
  split_ifs with hc hn
  · exact ⟨hn, h2⟩
  · exact ⟨h1, h2⟩
  · exact ⟨h1, h2⟩

theorem tocDotsDraw_bound {n : Nat} {st : FillState} (wf : Bool → String → Nat → Nat)
    (isBold : Bool) (entrySize : Nat) (indent : Int) (line : String) (h : DrawsBound n st) :
    DrawsBound n (tocDotsDraw wf isBold entrySize indent line st) := by
  obtain ⟨h1, h2⟩ := h
  unfold tocDotsDraw
  dsimp only
  split_ifs
  · refine ⟨h1, ?_⟩
    intro d hd
    simp only [List.mem_append, List.mem_singleton] at hd
    rcases hd with hd | hd
    · exact h2 d hd
    · subst hd
      exact h1
  · exact ⟨h1, h2⟩

theorem tocLineStep_bound {n : Nat} {st : FillState} (wf : Bool → String → Nat → Nat)
    (isBold : Bool) (entrySize : Nat) (indent : Int) (displayPageStr : String)
    (target : Option Int) (linesLen : Nat) (il : Nat × String) (h : DrawsBound n st) :
    DrawsBound n (tocLineStep wf n isBold entrySize indent displayPageStr target
      linesLen st il) := by
  unfold tocLineStep
  dsimp only
  have hb1 := tocPageBreak_bound h
  obtain ⟨hb1c, hb1d⟩ := hb1
  have hb2 : DrawsBound n { tocPageBreak n st with
      draws := (tocPageBreak n st).draws ++ [TocDraw.text (tocPageBreak n st).curPage il.2] } := by
    refine ⟨hb1c, ?_⟩
    intro d hd
    simp only [List.mem_append, List.mem_singleton] at hd
    rcases hd with hd | hd
    · exact hb1d d hd
    · subst hd
      exact hb1c
  split_ifs
  · have hb3 := tocDotsDraw_bound wf isBold entrySize indent il.2 hb2
    obtain ⟨hb3c, hb3d⟩ := hb3
    refine ⟨hb3c, ?_⟩
    intro d hd
    simp only [List.mem_append, List.mem_singleton] at hd
    rcases hd with hd | hd
    · exact hb3d d hd
    · subst hd
      exact hb3c
  · exact hb2

theorem tocEntryStep_bound {n : Nat} {st : FillState} (wf : Bool → String → Nat → Nat)
    (pageOffset contentStart contentEnd : Int) (totalPages : Nat) (entry : TocEntry)
    (h : DrawsBound n st) :
    DrawsBound n (tocEntryStep wf n pageOffset contentStart contentEnd totalPages st entry) := by
  have key : ∀ (isBold : Bool) (entrySize : Nat) (indent : Int) (displayPageStr : String)
      (target : Option Int) (lines : List String),
      DrawsBound n (lines.enum.foldl
        (tocLineStep wf n isBold entrySize indent displayPageStr target lines.length) st) := by
    intro isBold entrySize indent displayPageStr target lines
    refine foldl_inv _ st ?_ h
    intro s' il _ hs'
    exact tocLineStep_bound wf isBold entrySize indent displayPageStr target lines.length il hs'
  unfold tocEntryStep
  dsimp only
  exact key _ _ _ _ _ _

theorem fillTocDraws_bound (wf : Bool → String → Nat → Nat) (n : Nat)
    (pageOffset contentStart contentEnd : Int) (totalPages : Nat) (toc : List TocEntry)
    (hn : 1 ≤ n) :
    ∀ d ∈ fillTocDraws wf n pageOffset contentStart contentEnd totalPages toc,
      drawPage d < n := by
  unfold fillTocDraws
  have hres : DrawsBound n (toc.foldl
      (tocEntryStep wf n pageOffset contentStart contentEnd totalPages)
      { curPage := 0, tocPageIndex := 0, cursorY := pageHeightC - marginC - 5000
      , draws := [TocDraw.text 0 "Table of Contents"] }) := by
    refine foldl_inv _ _ ?_ ?_
    · intro s' entry _ hs'
      exact tocEntryStep_bound wf _ _ _ _ entry hs'
    · refine ⟨hn, ?_⟩
      intro d hd
      simp at hd
      subst hd
      simpa [drawPage] using hn
  exact hres.2

theorem foldl_fst_mono {β : Type _} (f : (Nat × Int) → β → (Nat × Int))
    (hf : ∀ st b, st.1 ≤ (f st b).1) :
    ∀ (l : List β) (st : Nat × Int), st.1 ≤ (l.foldl f st).1 := by
  intro l
  induction l with
  | nil => intro st; exact le_refl _
  | cons b bs ih =>
    intro st
    exact le_trans (hf st b) (ih (f st b))

theorem innerStep_fst_mono (lines : List String) (st : Nat × Int) :
    st.1 ≤ (lines.foldl (fun (st : Nat × Int) _ =>
      let st := if st.2 < marginC then (st.1 + 1, pageHeightC - marginC) else st
      (st.1, st.2 - lineHeightC)) st).1 := by
  refine foldl_fst_mono _ ?_ lines st
  intro st2 b
  dsimp only
  split_ifs <;> simp

theorem measureTocPages_pos (wf : Bool → String → Nat → Nat) (toc : List TocEntry) :
    1 ≤ measureTocPages wf toc := by
  unfold measureTocPages
  refine foldl_fst_mono _ ?_ toc (1, pageHeightC - marginC - 6000)
  intro st entry
  dsimp only
  exact innerStep_fst_mono _ st

theorem modifyAt_length {α : Type _} (f : α → α) :
    ∀ (i : Nat) (l : List α), (modifyAt f i l).length = l.length := by
  intro i
  induction i with
  | zero => intro l; cases l <;> simp [modifyAt]
  | succ m ih => intro l; cases l <;> simp [modifyAt, ih]

theorem applyTocDraws_length {α : Type _} (ds : List TocDraw) :
    ∀ (doc : List (ModelPage α)), (applyTocDraws doc ds).length = doc.length := by
  unfold applyTocDraws
  induction ds with
  | nil => intro doc; rfl
  | cons d rest ih =>
    intro doc
    simp only [List.foldl_cons]
    rw [ih, modifyAt_length]

theorem modifyAt_drop {α : Type _} (f : α → α) :
    ∀ (i n : Nat) (l : List α), i < n → (modifyAt f i l).drop n = l.drop n := by
  intro i
  induction i with
  | zero =>
    intro n l h
    cases l with
    | nil => rfl
    | cons x xs =>
      obtain ⟨m, rfl⟩ : ∃ m, n = m + 1 := ⟨n - 1, by omega⟩
      simp [modifyAt]
  | succ k ih =>
    intro n l h
    cases l with
    | nil => rfl
    | cons x xs =>
      obtain ⟨m, rfl⟩ : ∃ m, n = m + 1 := ⟨n - 1, by omega⟩
      simp only [modifyAt, List.drop_succ_cons]
      exact ih m xs (by omega)

theorem applyTocDraws_drop {α : Type _} (n : Nat) (ds : List TocDraw)
    (hd : ∀ d ∈ ds, drawPage d < n) :
    ∀ (doc : List (ModelPage α)), (applyTocDraws doc ds).drop n = doc.drop n := by
  unfold applyTocDraws
  induction ds with
  | nil => intro doc; rfl
  | cons d rest ih =>
    intro doc
    simp only [List.foldl_cons]
    rw [ih (fun d' hd' => hd d' (List.mem_cons_of_mem d hd')),
      modifyAt_drop _ _ _ _ (hd d (List.mem_cons_self d rest))]

theorem composeDoc_length {α : Type _} (n : Nat) (body : List α) (k : Nat) :
    (composeDoc n body k).length = n + body.length + k := by
  simp [composeDoc]
  omega

theorem composeDoc_body_slice {α : Type _} (n : Nat) (body : List α) (k : Nat) :
    ((composeDoc n body k).drop n).take body.length
      = body.map (fun a => (⟨PageBase.bodyPage a, []⟩ : ModelPage α)) := by
  unfold composeDoc
  rw [List.append_assoc,
    List.drop_left' (List.length_replicate n (⟨PageBase.tocBlank, []⟩ : ModelPage α)),
    List.take_left' (List.length_map body (fun a => (⟨PageBase.bodyPage a, []⟩ : ModelPage α)))]

/-- C9: writing the composed document as tocPageCount placeholder pages
followed by the body pages verbatim in order and then the index pages, the
measurement pass allocates at least one front-matter page, the Step 4 outline
fill draws only onto pages 0..tocPageCount-1 (overflow is clipped to the last
allocated page, never extending the document), and after applying every draw
the document keeps its page count and its body slice: pages
tocPageCount..tocPageCount+bodyLen-1 are exactly the original body pages with
nothing drawn on them. -/
theorem c9_composition_frame {α : Type} (wf : Bool → String → Nat → Nat)
    (toc : List TocEntry) (body : List α) (indexPageCount : Nat)
    (pageOffset contentStart contentEnd : Int) (totalPages : Nat) :
    let n := measureTocPages wf toc
    let draws := fillTocDraws wf n pageOffset contentStart contentEnd totalPages toc
    let doc := applyTocDraws (composeDoc n body indexPageCount) draws
    1 ≤ n
    ∧ draws.all (fun d => decide (drawPage d < n)) = true
    ∧ doc.length = n + body.length + indexPageCount
    ∧ (doc.drop n).take body.length
        = body.map (fun a => (⟨PageBase.bodyPage a, []⟩ : ModelPage α)) := by
  intro n draws doc
  have hn : 1 ≤ n := measureTocPages_pos wf toc
  have hbound : ∀ d ∈ draws, drawPage d < n :=
    fillTocDraws_bound wf n pageOffset contentStart contentEnd totalPages toc hn
  refine ⟨hn, ?_, ?_, ?_⟩
  · rw [List.all_eq_true]
    intro d hd
    exact decide_eq_true (hbound d hd)
  · rw [applyTocDraws_length, composeDoc_length]
  · rw [applyTocDraws_drop n draws hbound, composeDoc_body_slice]

/-
Claim C7.
-/

/-- Nonempty page reference made of decimal digits only. -/
def digitStr (s : String) : Bool := !s.data.isEmpty && s.data.all (fun c => c.isDigit)

theorem digitStr_parseInt {s : String} (h : digitStr s = true) : (jsParseInt s).isSome := by
  obtain ⟨cs⟩ := s
  simp only [digitStr, Bool.and_eq_true, Bool.not_eq_true'] at h
  obtain ⟨hne, hall⟩ := h
  rw [jsParseInt_all_digits (by simpa [List.all_eq_true] using hall)]
  rw [hne]
  simp

theorem digitStr_getPageNum {s : String} (h : digitStr s = true) : (getPageNum s).isSome := by
  obtain ⟨cs⟩ := s
  simp only [digitStr, Bool.and_eq_true, Bool.not_eq_true'] at h
  obtain ⟨hne, hall⟩ := h
  cases cs with
  | nil => simp at hne
  | cons c rest =>
    have hc : c.isDigit = true := by
      have := List.all_eq_true.mp hall c (by simp)
      simpa using this
    simp [getPageNum, firstDigitRun, hc]

theorem dedupTocAux_keys : ∀ (l : List TocEntry) (seen : List String),
    ((dedupTocAux l seen).map tocKey).Nodup
    ∧ ∀ e ∈ dedupTocAux l seen, tocKey e ∉ seen := by
  intro l
  induction l with
  | nil => intro seen; simp [dedupTocAux]
  | cons x xs ih =>
    intro seen
    rw [dedupTocAux]
    by_cases hx : seen.contains (tocKey x) = true
    · rw [if_pos hx]
      exact ih seen
    · rw [if_neg hx]
      obtain ⟨ihnd, ihni⟩ := ih (tocKey x :: seen)
      refine ⟨?_, ?_⟩
      · simp only [List.map_cons, List.nodup_cons]
        refine ⟨?_, ihnd⟩
        intro hmem
        obtain ⟨e, he, hek⟩ := List.mem_map.mp hmem
        have hni := ihni e he
        rw [hek] at hni
        exact hni (by simp)
      · intro e he
        rcases List.mem_cons.mp he with rfl | he'
        · intro hin
          exact hx ((contains_eq_true_iff seen (tocKey e)).mpr hin)
        · intro hin
          exact ihni e he' (by simp [hin])

theorem dedupTocAux_eq_self : ∀ (l : List TocEntry) (seen : List String),
    (l.map tocKey).Nodup → (∀ e ∈ l, tocKey e ∉ seen) → dedupTocAux l seen = l := by
  intro l
  induction l with
  | nil => intro seen _ _; rfl
  | cons x xs ih =>
    intro seen hnd hni
    simp only [List.map_cons, List.nodup_cons] at hnd
    rw [dedupTocAux]
    have hx : ¬ (seen.contains (tocKey x) = true) := fun hc =>
      hni x (by simp) ((contains_eq_true_iff _ _).mp hc)
    rw [if_neg hx]
    congr 1
    refine ih (tocKey x :: seen) hnd.2 ?_
    intro e he hin
    rcases List.mem_cons.mp hin with heq | hseen
    · exact hnd.1 (heq ▸ List.mem_map.mpr ⟨e, he, rfl⟩)
    · exact hni e (by simp [he]) hseen

theorem mapUpdate_append_of_not_mem : ∀ (m : List (String × IndexRecord)) (k : String)
    (f : IndexRecord → IndexRecord), k ∉ mapKeys m → mapUpdate m k f = m ++ [(k, f ⟨[], []⟩)] := by
  intro m
  induction m with
  | nil => intro k f _; rfl
  | cons kr rest ih =>
    intro k f hk
    obtain ⟨k', r⟩ := kr
    have hne : k' ≠ k := by
      intro h
      subst h
      exact hk (by simp [mapKeys])
    simp only [mapUpdate, if_neg hne, List.cons_append, List.cons.injEq, true_and]
    exact ih k f (fun hmem => hk (by simp [mapKeys] at hmem ⊢; exact Or.inr hmem))

theorem addPages_eq_append : ∀ (ps acc : List String), (acc ++ ps).Nodup →
    addPages acc ps = acc ++ ps := by
  intro ps
  induction ps with
  | nil => intro acc _; simp [addPages]
  | cons p rest ih =>
    intro acc hnd
    have hp : ¬ (acc.contains p = true) := by
      intro hc
      have hmem := (contains_eq_true_iff _ _).mp hc
      exact (List.nodup_append.mp hnd).2.2 hmem (by simp)
    have hstep : addPage acc p = acc ++ [p] := by
      have hpm : p ∉ acc := fun hm => hp ((contains_eq_true_iff _ _).mpr hm)
      simp [addPage, hpm]
    have h2 := ih (acc ++ [p]) (by simpa using hnd)
    rw [addPages, List.foldl_cons, hstep]
    rw [addPages] at h2
    rw [h2]
    simp

/-- Key-record pair produced for an already-canonical entry (trimmed,
nonempty, first occurrence of its lowercased key). -/
def canonEntry (e : IndexEntry) : String × IndexRecord :=
  (jsToLower e.term, recInsert e.term e.pageNumbers ⟨[], []⟩)

theorem buildIndexMap_canonical_aux : ∀ (l : List IndexEntry) (m : List (String × IndexRecord)),
    (∀ e ∈ l, jsTrim e.term = e.term ∧ e.term ≠ "") →
    (mapKeys m ++ l.map (fun e => jsToLower e.term)).Nodup →
    l.foldl insertIndexEntry m = m ++ l.map canonEntry := by
  intro l
  induction l with
  | nil => intro m _ _; simp
  | cons e es ih =>
    intro m hcan hnd
    obtain ⟨htr, hne⟩ := hcan e (by simp)
    simp only [List.map_cons] at hnd
    have hstep : insertIndexEntry m e = m ++ [canonEntry e] := by
      unfold insertIndexEntry
      dsimp only
      rw [htr, if_neg hne]
      refine mapUpdate_append_of_not_mem m _ _ ?_
      intro hmem
      exact (List.nodup_append.mp hnd).2.2 hmem (by simp)
    rw [List.foldl_cons, hstep]
    have hnd2 : (mapKeys (m ++ [canonEntry e]) ++ es.map (fun e => jsToLower e.term)).Nodup := by
      have hk : mapKeys (m ++ [canonEntry e]) = mapKeys m ++ [jsToLower e.term] := by
        simp [mapKeys, canonEntry]
      rw [hk, List.append_assoc]
      simpa using hnd
    rw [ih (m ++ [canonEntry e]) (fun e' he' => hcan e' (by simp [he'])) hnd2]
    simp

theorem buildIndexMap_canonical (l : List IndexEntry)
    (hnd : (l.map (fun e => jsToLower e.term)).Nodup)
    (hcan : ∀ e ∈ l, jsTrim e.term = e.term ∧ e.term ≠ "") :
    buildIndexMap l = l.map canonEntry := by
  unfold buildIndexMap
  rw [buildIndexMap_canonical_aux l [] hcan (by simpa [mapKeys] using hnd)]
  simp

theorem bestTerm_single (t : String) (ps : List String) :
    bestTerm ⟨[(t, 1)], ps⟩ = t := rfl

theorem mergeIndexEntry_canon (e : IndexEntry) (hnd : e.pageNumbers.Nodup)
    (hpw : e.pageNumbers.Pairwise (fun a b => pageLe a b = true)) :
    mergeIndexEntry (canonEntry e).2 = e := by
  unfold canonEntry recInsert mergeIndexEntry
  dsimp only
  rw [show bumpVariant ([] : List (String × Nat)) e.term = [(e.term, 1)] from rfl]
  rw [show addPages ([] : List String) e.pageNumbers
      = ([] : List String) ++ e.pageNumbers from addPages_eq_append e.pageNumbers [] (by simpa using hnd)]
  simp only [List.nil_append]
  rw [bestTerm_single, jsSort_of_pairwise pageLe hpw]

theorem mergeAnalysisResults_single (r : AnalysisResult) :
    mergeAnalysisResults [r]
      = { toc := jsSort tocLe (dedupTocAux r.toc [])
        , index := jsSort baseLe
            (((buildIndexMap r.index).map (fun kr => mergeIndexEntry kr.2))) } := by
  unfold mergeAnalysisResults
  simp

/-- C7 counterexample: the claimed idempotence
mergeAnalysisResults [mergeAnalysisResults batches] = mergeAnalysisResults
batches fails.  With outline page references "A", "Z1", "9" the first merge
orders them [9, A, Z1] (the comparator falls back to string comparison when
a reference has no digit run), but remerging that output gives [Z1, 9, A]:
the comparator is not transitive ("9" < "A" and "A" < "Z1" as strings, yet
"Z1" < "9" numerically), so the insertion sort's result depends on the
input order and the outline sequence changes. -/
theorem c7_idempotence_counterexample :
    mergeAnalysisResults [mergeAnalysisResults
      [⟨[⟨"a", 1, "A"⟩, ⟨"b", 1, "Z1"⟩, ⟨"c", 1, "9"⟩], []⟩]]
    ≠ mergeAnalysisResults [⟨[⟨"a", 1, "A"⟩, ⟨"b", 1, "Z1"⟩, ⟨"c", 1, "9"⟩], []⟩] := by
  decide

/-- C7 amended: consolidation is idempotent on inputs whose page references
are all nonempty digit-only strings (the common case of sequential
numbering): when every outline page reference and every index page
reference of every batch consists of decimal digits, feeding the
consolidated result back in as a single-batch input yields the identical
dataset, toc and index alike.  (The restriction is needed because both page
comparators fall back to string comparison on references that do not parse,
which makes them intransitive and the sorted order input-dependent.) -/
theorem c7_idempotence_amended (results : List AnalysisResult)
    (htoc : ∀ r ∈ results, ∀ t ∈ r.toc, digitStr t.pageNumber = true)
    (hidx : ∀ r ∈ results, ∀ e ∈ r.index, ∀ p ∈ e.pageNumbers, digitStr p = true) :
    mergeAnalysisResults [mergeAnalysisResults results] = mergeAnalysisResults results := by
  have hdigit_toc : ∀ e ∈ dedupTocAux ((results.map (fun r => r.toc)).flatten) [],
      digitStr e.pageNumber = true := by
    intro e he
    have hmem := dedupTocAux_subset _ [] e he
    rw [List.mem_flatten] at hmem
    obtain ⟨l, hl, hel⟩ := hmem
    obtain ⟨r, hr, rfl⟩ := List.mem_map.mp hl
    exact htoc r hr e hel
  have htocpw : (mergeAnalysisResults results).toc.Pairwise (fun a b => tocLe a b = true) := by
    show (jsSort tocLe (dedupTocAux ((results.map (fun r => r.toc)).flatten) [])).Pairwise _
    refine jsSort_pairwise tocLe _ (fun a _ b _ => tocLe_total a b) ?_
    intro a ha b hb c hc h1 h2
    exact tocLe_trans_of_num (digitStr_getPageNum (hdigit_toc a ha))
      (digitStr_getPageNum (hdigit_toc b hb)) (digitStr_getPageNum (hdigit_toc c hc)) h1 h2
  have htockeys : ((mergeAnalysisResults results).toc.map tocKey).Nodup := by
    show ((jsSort tocLe (dedupTocAux ((results.map (fun r => r.toc)).flatten) [])).map tocKey).Nodup
    exact ((jsSort_perm tocLe _).map tocKey).nodup_iff.mpr (dedupTocAux_keys _ []).1
  have htocside : jsSort tocLe (dedupTocAux (mergeAnalysisResults results).toc [])
      = (mergeAnalysisResults results).toc := by
    rw [dedupTocAux_eq_self _ [] htockeys (by intro e _ h; simp at h)]
    exact jsSort_of_pairwise tocLe htocpw
  have hentry : ∀ e ∈ (mergeAnalysisResults results).index,
      ∃ k r, (k, r) ∈ buildIndexMap ((results.map (fun r => r.index)).flatten)
        ∧ e = mergeIndexEntry r := by
    intro e he
    have he' : e ∈ (buildIndexMap ((results.map (fun r => r.index)).flatten)).map
        (fun kr => mergeIndexEntry kr.2) := by
      have hm : e ∈ jsSort baseLe ((buildIndexMap ((results.map (fun r => r.index)).flatten)).map
          (fun kr => mergeIndexEntry kr.2)) := he
      rwa [mem_jsSort] at hm
    obtain ⟨kr, hkr, hekr⟩ := List.mem_map.mp he'
    exact ⟨kr.1, kr.2, hkr, hekr.symm⟩
  have hdigit_idx : ∀ eIn ∈ (results.map (fun r => r.index)).flatten,
      ∀ p ∈ eIn.pageNumbers, digitStr p = true := by
    intro eIn hmem p hp
    rw [List.mem_flatten] at hmem
    obtain ⟨l, hl, hel⟩ := hmem
    obtain ⟨r, hr, rfl⟩ := List.mem_map.mp hl
    exact hidx r hr eIn hel p hp
  have hfacts : ∀ e ∈ (mergeAnalysisResults results).index,
      jsTrim e.term = e.term ∧ e.term ≠ ""
      ∧ e.pageNumbers.Nodup
      ∧ e.pageNumbers.Pairwise (fun a b => pageLe a b = true) := by
    intro e he
    obtain ⟨k, r, hkr, rfl⟩ := hentry e he
    obtain ⟨hbt_mem, -, -⟩ := bestTerm_spec hkr
    obtain ⟨-, -, hkeyfacts, -⟩ := record_variants_spec hkr
    obtain ⟨htrm, hnem, -, -⟩ := hkeyfacts _ hbt_mem
    obtain ⟨hrnd, hrmem⟩ := record_pages_spec hkr
    have hpagesdigit : ∀ p ∈ r.pageNumbers, digitStr p = true := by
      intro p hp
      obtain ⟨eIn, heIn, -, hpIn⟩ := (hrmem p).mp hp
      exact hdigit_idx eIn heIn p hpIn
    refine ⟨htrm, hnem, ?_, ?_⟩
    · show (jsSort pageLe r.pageNumbers).Nodup
      exact (jsSort_perm pageLe _).nodup_iff.mpr hrnd
    · show (jsSort pageLe r.pageNumbers).Pairwise _
      refine jsSort_pairwise pageLe _ (fun a _ b _ => pageLe_total a b) ?_
      intro a ha b hb c hc h1 h2
      exact pageLe_trans_of_parse (digitStr_parseInt (hpagesdigit a ha))
        (digitStr_parseInt (hpagesdigit b hb)) (digitStr_parseInt (hpagesdigit c hc)) h1 h2
  have hlnodup : ((mergeAnalysisResults results).index.map (fun e => jsToLower e.term)).Nodup := by
    show ((jsSort baseLe ((buildIndexMap ((results.map (fun r => r.index)).flatten)).map
        (fun kr => mergeIndexEntry kr.2))).map (fun e => jsToLower e.term)).Nodup
    refine ((jsSort_perm baseLe _).map (fun e => jsToLower e.term)).nodup_iff.mpr ?_
    rw [List.map_map]
    have hnd := nodup_mapKeys_buildIndexMap ((results.map (fun r => r.index)).flatten)
    have hcongr : (buildIndexMap ((results.map (fun r => r.index)).flatten)).map
          ((fun e => jsToLower e.term) ∘ (fun kr => mergeIndexEntry kr.2))
        = (buildIndexMap ((results.map (fun r => r.index)).flatten)).map (fun kr => kr.1) := by
      refine List.map_congr_left ?_
      intro kr hkr
      obtain ⟨k, r⟩ := kr
      exact merged_entry_lower hkr
    rw [hcongr]
    exact hnd
  have hidxpw : (mergeAnalysisResults results).index.Pairwise (fun a b => baseLe a b = true) := by
    show (jsSort baseLe ((buildIndexMap ((results.map (fun r => r.index)).flatten)).map
        (fun kr => mergeIndexEntry kr.2))).Pairwise _
    exact jsSort_pairwise baseLe _ (fun a _ b _ => baseLe_total a b)
      (fun a _ b _ c _ => baseLe_trans a b c)
  have hidxside : jsSort baseLe (((buildIndexMap (mergeAnalysisResults results).index).map
      (fun kr => mergeIndexEntry kr.2))) = (mergeAnalysisResults results).index := by
    rw [buildIndexMap_canonical _ hlnodup (fun e he => ⟨(hfacts e he).1, (hfacts e he).2.1⟩)]
    rw [List.map_map]
    have hmapid : (mergeAnalysisResults results).index.map
          ((fun kr => mergeIndexEntry kr.2) ∘ canonEntry)
        = (mergeAnalysisResults results).index.map id := by
      refine List.map_congr_left ?_
      intro e he
      obtain ⟨-, -, hnd, hpw⟩ := hfacts e he
      exact mergeIndexEntry_canon e hnd hpw
    rw [hmapid, List.map_id]
    exact jsSort_of_pairwise baseLe hidxpw
  rw [mergeAnalysisResults_single, htocside, hidxside]

/-- Witness for C7 amended at a concrete digit-only input: one batch with
outline pages 1 and 12 and index references 2, 1, 3, remerged. -/
theorem c7_idempotence_amended_witness :
    mergeAnalysisResults [mergeAnalysisResults
      [⟨[⟨"Intro", 1, "1"⟩, ⟨"Methods", 1, "12"⟩], [⟨"Cell", ["2", "1"]⟩, ⟨"dna", ["3"]⟩]⟩]]
    = mergeAnalysisResults
      [⟨[⟨"Intro", 1, "1"⟩, ⟨"Methods", 1, "12"⟩], [⟨"Cell", ["2", "1"]⟩, ⟨"dna", ["3"]⟩]⟩] :=
  c7_idempotence_amended _ (by decide) (by decide)
